import Mathlib

set_option maxRecDepth 1000000

/-!
Verification of the plagiarism-detection core of the PFXT repository.

The code under scrutiny lives in `src/utils.py` (functions
`calculate_code_similarity`, `calculate_hash`, `prefilter_codes`,
`analyze_plagiarism_for_exam`) and in `src/app.py`, which carries a second,
slightly different copy of the same functions.  The Python code is embedded
shallowly:

* strings are `List Char` (keys of the submission map stay `String`);
* each `re.sub(pattern, '', s)` comment pass is a scanning function with
  Python's leftmost, non-greedy match semantics;
* `hashlib.md5(...).hexdigest()` is a full MD5 implementation over `Nat`
  bytes (RFC 1321), producing the lowercase hex digest;
* `difflib.SequenceMatcher` (with `isjunk=None`, as in both call sites) is
  embedded with its `b2j` index, the autojunk purge, the longest-match DP
  with its tie-breaking, both non-junk extension loops and the recursive
  block collection; since `isjunk` is `None`, `bjunk = ∅`, so the two
  junk-extension loops of `find_longest_match` are identically no-ops and
  are constant-folded away here;
* `matcher.ratio() * 100`, a float in Python, is modelled by its exact
  rational value `mkRat (200 * matches) (len a + len b)` (and `100` when
  both strings are empty, mirroring `_calculate_ratio`);
* the Python `dict` (insertion ordered, unique keys) is an association
  list, `defaultdict(list)` bucketing is an insertion fold that appends.
-/

/-! ### Character classes (Python regex `[a-zA-Z_]`, `[a-zA-Z0-9_]`, `\s`) -/

/-- `[a-zA-Z_]`: first character of an identifier in the regex
`[a-zA-Z_][a-zA-Z0-9_]*` of `calculate_hash`. -/
def isIdStart (c : Char) : Bool :=
  (('a' ≤ c) && (c ≤ 'z')) || (('A' ≤ c) && (c ≤ 'Z')) || (c = '_')

/-- `[a-zA-Z0-9_]`: continuation character of an identifier. -/
def isIdCont (c : Char) : Bool :=
  isIdStart c || (('0' ≤ c) && (c ≤ '9'))

/-- Python regex `\s` on the ASCII range: space, tab, newline, carriage
return, vertical tab, form feed.  (`re.sub(r'\s+', '', s)` removes exactly
these characters from ASCII source text; the Unicode-only whitespace code
points play no role in any statement below.) -/
def isPySpace (c : Char) : Bool :=
  (c = ' ') || (c = '\t') || (c = '\n') || (c = '\r') || (c = '\x0b') || (c = '\x0c')

/-! ### `re.sub(pattern, '', s)` for the comment patterns

All five comment patterns of `calculate_hash` have the shape
`opener .*? closer` (for the two line-comment patterns the closer is the
newline, and `.` does not match a newline, which coincides with scanning to
the nearest newline).  Python's `re.sub` removes the leftmost, shortest
matches and resumes scanning after each removed span; an opener with no
closer in the rest of the text matches nothing, and scanning resumes one
character further. -/

/-- Scan for the nearest occurrence of the closer `c0 :: cl`; on success
return the text after it.  `none` when the closer never occurs. -/
def dropThroughCloser (c0 : Char) (cl : List Char) : List Char → Option (List Char)
  | [] => none
  | c :: cs =>
    if (c0 :: cl).isPrefixOf (c :: cs) then some ((c :: cs).drop (c0 :: cl).length)
    else dropThroughCloser c0 cl cs

theorem dropThroughCloser_length {c0 : Char} {cl l r : List Char}
    (h : dropThroughCloser c0 cl l = some r) : r.length < l.length := by
  induction l with
  | nil => simp [dropThroughCloser] at h
  | cons c cs ih =>
    by_cases hp : (c0 :: cl).isPrefixOf (c :: cs)
    · simp only [dropThroughCloser, if_pos hp, Option.some.injEq] at h
      subst h
      simp only [List.length_drop, List.length_cons]
      omega
    · simp only [dropThroughCloser, if_neg hp] at h
      have := ih h
      simp only [List.length_cons]
      omega

/-- One `re.sub('op .*? (c0 :: cl)', '', ·)` pass, with structural fuel so
that the kernel can evaluate it (the input shrinks at every step, so any
fuel `≥` the input length computes the fixpoint; `stripSpan` below
instantiates the fuel and `stripSpan_cons_*` restate the intended
recursion). -/
def stripSpanAux (op : List Char) (c0 : Char) (cl : List Char) : Nat → List Char → List Char
  | _, [] => []
  | 0, l => l
  | fuel + 1, c :: cs =>
    if op.isPrefixOf (c :: cs) then
      match dropThroughCloser c0 cl ((c :: cs).drop op.length) with
      | some rest => stripSpanAux op c0 cl fuel rest
      | none => c :: stripSpanAux op c0 cl fuel cs
    else c :: stripSpanAux op c0 cl fuel cs

/-- One `re.sub('op .*? (c0 :: cl)', '', ·)` pass. -/
def stripSpan (op : List Char) (c0 : Char) (cl : List Char) (l : List Char) : List Char :=
  stripSpanAux op c0 cl l.length l

theorem stripSpanAux_fuel (op : List Char) (c0 : Char) (cl : List Char) :
    ∀ f₁ : Nat, ∀ f₂ : Nat, ∀ l : List Char, l.length ≤ f₁ → l.length ≤ f₂ →
      stripSpanAux op c0 cl f₁ l = stripSpanAux op c0 cl f₂ l := by
  intro f₁
  induction f₁ with
  | zero =>
    intro f₂ l h1 _
    have : l = [] := List.eq_nil_of_length_eq_zero (Nat.le_zero.mp h1)
    subst this
    cases f₂ <;> rfl
  | succ f ih =>
    intro f₂ l h1 h2
    cases l with
    | nil => cases f₂ <;> rfl
    | cons c cs =>
      cases f₂ with
      | zero => simp at h2
      | succ f₂ =>
        simp only [stripSpanAux]
        by_cases hp : op.isPrefixOf (c :: cs)
        · simp only [if_pos hp]
          cases hdr : dropThroughCloser c0 cl ((c :: cs).drop op.length) with
          | some rest =>
            have hr := dropThroughCloser_length hdr
            have hd : ((c :: cs).drop op.length).length ≤ cs.length + 1 := by
              simp [List.length_drop]
            simp only [List.length_cons] at h1 h2
            exact ih f₂ rest (by omega) (by omega)
          | none =>
            simp only [List.length_cons] at h1 h2
            rw [ih f₂ cs (by omega) (by omega)]
        · simp only [if_neg hp, List.length_cons] at *
          rw [ih f₂ cs (by omega) (by omega)]

theorem stripSpan_nil (op : List Char) (c0 : Char) (cl : List Char) :
    stripSpan op c0 cl [] = [] := rfl

theorem stripSpan_cons_some (op : List Char) (c0 : Char) (cl : List Char)
    (c : Char) (cs rest : List Char) (hp : op.isPrefixOf (c :: cs))
    (hdr : dropThroughCloser c0 cl ((c :: cs).drop op.length) = some rest) :
    stripSpan op c0 cl (c :: cs) = stripSpan op c0 cl rest := by
  have hr := dropThroughCloser_length hdr
  have hd : ((c :: cs).drop op.length).length ≤ cs.length + 1 := by
    simp [List.length_drop]
  unfold stripSpan
  simp only [List.length_cons, stripSpanAux, if_pos hp, hdr]
  exact stripSpanAux_fuel op c0 cl cs.length rest.length rest (by omega) (by omega)

theorem stripSpan_cons_none (op : List Char) (c0 : Char) (cl : List Char)
    (c : Char) (cs : List Char) (hp : op.isPrefixOf (c :: cs))
    (hdr : dropThroughCloser c0 cl ((c :: cs).drop op.length) = none) :
    stripSpan op c0 cl (c :: cs) = c :: stripSpan op c0 cl cs := by
  unfold stripSpan
  simp only [List.length_cons, stripSpanAux, if_pos hp, hdr]

theorem stripSpan_cons_neg (op : List Char) (c0 : Char) (cl : List Char)
    (c : Char) (cs : List Char) (hp : ¬ op.isPrefixOf (c :: cs)) :
    stripSpan op c0 cl (c :: cs) = c :: stripSpan op c0 cl cs := by
  unfold stripSpan
  simp only [List.length_cons, stripSpanAux, if_neg hp]

/-- `re.sub(r'#.*?\n', '', s)` — Python line comments (utils.py line 66). -/
def stripHashC (s : List Char) : List Char := stripSpan ['#'] '\n' [] s

/-- `re.sub(r'//.*?\n', '', s)` — C line comments (utils.py line 67). -/
def stripSlashC (s : List Char) : List Char := stripSpan ['/', '/'] '\n' [] s

/-- `re.sub(r'/\*.*?\*/', '', s, flags=re.DOTALL)` (utils.py line 68). -/
def stripBlockC (s : List Char) : List Char := stripSpan ['/', '*'] '*' ['/'] s

/-- The single-quote character. -/
def sqChar : Char := Char.ofNat 39

/-- `re.sub` of three single quotes, anything, three single quotes
(non-greedy, DOTALL) — utils.py line 69. -/
def stripSq3 (s : List Char) : List Char :=
  stripSpan [sqChar, sqChar, sqChar] sqChar [sqChar, sqChar] s

/-- `re.sub(r'""".*?"""', '', s, flags=re.DOTALL)` (utils.py line 70). -/
def stripDq3 (s : List Char) : List Char := stripSpan ['"', '"', '"'] '"' ['"', '"'] s

/-- `re.sub(r'\s+', '', s)` (utils.py line 71): drop every whitespace char. -/
def wsFilter (s : List Char) : List Char := s.filter (fun c => !isPySpace c)

theorem dropWhile_length_le (p : Char → Bool) (l : List Char) :
    (l.dropWhile p).length ≤ l.length := by
  induction l with
  | nil => simp
  | cons c cs ih =>
    by_cases h : p c
    · rw [List.dropWhile_cons_of_pos h]
      exact Nat.le_succ_of_le ih
    · rw [List.dropWhile_cons_of_neg h]

/-- Fueled body of `replaceIdents`; see `stripSpanAux` for the pattern. -/
def replaceIdentsAux : Nat → List Char → List Char
  | _, [] => []
  | 0, l => l
  | fuel + 1, c :: cs =>
    if isIdStart c then 'v' :: 'a' :: 'r' :: replaceIdentsAux fuel (cs.dropWhile isIdCont)
    else c :: replaceIdentsAux fuel cs

/-- `re.sub(r'[a-zA-Z_][a-zA-Z0-9_]*', 'var', s)` (utils.py line 72): each
maximal identifier run collapses to the three characters `var`. -/
def replaceIdents (l : List Char) : List Char := replaceIdentsAux l.length l

theorem replaceIdentsAux_fuel :
    ∀ f₁ : Nat, ∀ f₂ : Nat, ∀ l : List Char, l.length ≤ f₁ → l.length ≤ f₂ →
      replaceIdentsAux f₁ l = replaceIdentsAux f₂ l := by
  intro f₁
  induction f₁ with
  | zero =>
    intro f₂ l h1 _
    have : l = [] := List.eq_nil_of_length_eq_zero (Nat.le_zero.mp h1)
    subst this
    cases f₂ <;> rfl
  | succ f ih =>
    intro f₂ l h1 h2
    cases l with
    | nil => cases f₂ <;> rfl
    | cons c cs =>
      cases f₂ with
      | zero => simp at h2
      | succ f₂ =>
        simp only [replaceIdentsAux, List.length_cons] at *
        by_cases hs : isIdStart c
        · simp only [if_pos hs]
          have := dropWhile_length_le isIdCont cs
          rw [ih f₂ (cs.dropWhile isIdCont) (by omega) (by omega)]
        · simp only [if_neg hs]
          rw [ih f₂ cs (by omega) (by omega)]

theorem replaceIdents_nil : replaceIdents [] = [] := rfl

theorem replaceIdents_start (c : Char) (cs : List Char) (hs : isIdStart c) :
    replaceIdents (c :: cs) = 'v' :: 'a' :: 'r' :: replaceIdents (cs.dropWhile isIdCont) := by
  unfold replaceIdents
  simp only [List.length_cons, replaceIdentsAux, if_pos hs]
  have := dropWhile_length_le isIdCont cs
  exact congrArg _ (congrArg _ (congrArg _
    (replaceIdentsAux_fuel cs.length (cs.dropWhile isIdCont).length _ (by omega) (by omega))))

theorem replaceIdents_other (c : Char) (cs : List Char) (hs : ¬ isIdStart c) :
    replaceIdents (c :: cs) = c :: replaceIdents cs := by
  unfold replaceIdents
  simp only [List.length_cons, replaceIdentsAux, if_neg hs]

/-- The normalization pipeline of `utils.calculate_hash` (utils.py 63–72):
`#`-comments, `//`-comments, `/* */` spans, `'''` spans, `"""` spans,
whitespace, identifiers — in exactly this order. -/
def utilsNormalize (code : List Char) : List Char :=
  replaceIdents (wsFilter (stripDq3 (stripSq3 (stripBlockC (stripSlashC (stripHashC code))))))

/-- The normalization pipeline of `app.calculate_hash` (app.py 156–163):
only the `//` and `/* */` passes, then whitespace and identifiers. -/
def appNormalize (code : List Char) : List Char :=
  replaceIdents (wsFilter (stripBlockC (stripSlashC code)))

/-! ### MD5 (RFC 1321), as used by `hashlib.md5(normalized.encode()).hexdigest()`

Bytes are `Nat < 256`; words are `Nat < 2^32` kept reduced by `w32`.  The
sine-derived constant table and the per-round shift table are the standard
ones.  `encode()` is UTF-8. -/

/-- Truncate to a 32-bit word. -/
def w32 (n : Nat) : Nat := n % 4294967296

/-- Rotate a 32-bit word left by `s` bits (`0 < s < 32` in all uses). -/
def rotl32 (x s : Nat) : Nat := w32 (x <<< s) + x >>> (32 - s)

/-- MD5 sine-derived constants `K[0..63]`. -/
def md5K : List Nat :=
  [0xd76aa478, 0xe8c7b756, 0x242070db, 0xc1bdceee,
   0xf57c0faf, 0x4787c62a, 0xa8304613, 0xfd469501,
   0x698098d8, 0x8b44f7af, 0xffff5bb1, 0x895cd7be,
   0x6b901122, 0xfd987193, 0xa679438e, 0x49b40821,
   0xf61e2562, 0xc040b340, 0x265e5a51, 0xe9b6c7aa,
   0xd62f105d, 0x02441453, 0xd8a1e681, 0xe7d3fbc8,
   0x21e1cde6, 0xc33707d6, 0xf4d50d87, 0x455a14ed,
   0xa9e3e905, 0xfcefa3f8, 0x676f02d9, 0x8d2a4c8a,
   0xfffa3942, 0x8771f681, 0x6d9d6122, 0xfde5380c,
   0xa4beea44, 0x4bdecfa9, 0xf6bb4b60, 0xbebfbc70,
   0x289b7ec6, 0xeaa127fa, 0xd4ef3085, 0x04881d05,
   0xd9d4d039, 0xe6db99e5, 0x1fa27cf8, 0xc4ac5665,
   0xf4292244, 0x432aff97, 0xab9423a7, 0xfc93a039,
   0x655b59c3, 0x8f0ccc92, 0xffeff47d, 0x85845dd1,
   0x6fa87e4f, 0xfe2ce6e0, 0xa3014314, 0x4e0811a1,
   0xf7537e82, 0xbd3af235, 0x2ad7d2bb, 0xeb86d391]

/-- MD5 per-round left-rotation amounts `s[0..63]`. -/
def md5S : List Nat :=
  [7, 12, 17, 22, 7, 12, 17, 22, 7, 12, 17, 22, 7, 12, 17, 22,
   5, 9, 14, 20, 5, 9, 14, 20, 5, 9, 14, 20, 5, 9, 14, 20,
   4, 11, 16, 23, 4, 11, 16, 23, 4, 11, 16, 23, 4, 11, 16, 23,
   6, 10, 15, 21, 6, 10, 15, 21, 6, 10, 15, 21, 6, 10, 15, 21]

/-- The round mixing function (F, G, H, I by quarter). -/
def md5F (i b c d : Nat) : Nat :=
  if i < 16 then (b &&& c) ||| ((b ^^^ 0xffffffff) &&& d)
  else if i < 32 then (d &&& b) ||| ((d ^^^ 0xffffffff) &&& c)
  else if i < 48 then b ^^^ c ^^^ d
  else c ^^^ (b ||| (d ^^^ 0xffffffff))

/-- The message-word index per round. -/
def md5G (i : Nat) : Nat :=
  if i < 16 then i
  else if i < 32 then (5 * i + 1) % 16
  else if i < 48 then (3 * i + 5) % 16
  else (7 * i) % 16

/-- The sixteen little-endian 32-bit words of a 64-byte block. -/
def md5Words (block : List Nat) : List Nat :=
  (List.range 16).map (fun i =>
    block.getD (4 * i) 0 + 256 * block.getD (4 * i + 1) 0 +
    65536 * block.getD (4 * i + 2) 0 + 16777216 * block.getD (4 * i + 3) 0)

/-- One MD5 round on the state `(a, b, c, d)`. -/
def md5Round (M : List Nat) (st : Nat × Nat × Nat × Nat) (i : Nat) : Nat × Nat × Nat × Nat :=
  match st with
  | (a, b, c, d) =>
    let t := w32 (a + md5F i b c d + md5K.getD i 0 + M.getD (md5G i) 0)
    (d, w32 (b + rotl32 t (md5S.getD i 0)), b, c)

/-- Process one 64-byte block and add the result into the running state. -/
def md5Block (st : Nat × Nat × Nat × Nat) (block : List Nat) : Nat × Nat × Nat × Nat :=
  match st, (List.range 64).foldl (md5Round (md5Words block)) st with
  | (a0, b0, c0, d0), (a, b, c, d) => (w32 (a0 + a), w32 (b0 + b), w32 (c0 + c), w32 (d0 + d))

/-- The eight little-endian bytes of the 64-bit message bit length. -/
def md5LenBytes (n : Nat) : List Nat := (List.range 8).map (fun i => n / 2 ^ (8 * i) % 256)

/-- MD5 padding: `0x80`, zeros to 56 mod 64, then the bit length. -/
def md5Pad (msg : List Nat) : List Nat :=
  msg ++ 0x80 :: List.replicate ((56 + 64 - (msg.length + 1) % 64) % 64) 0 ++
    md5LenBytes (8 * msg.length % 2 ^ 64)

/-- Split into 64-byte chunks (fueled; the padded length is a multiple of 64). -/
def md5ChunksAux : Nat → List Nat → List (List Nat)
  | _, [] => []
  | 0, _ => []
  | fuel + 1, b :: bs => ((b :: bs).take 64) :: md5ChunksAux fuel ((b :: bs).drop 64)

/-- Split a byte list into 64-byte chunks. -/
def md5Chunks (l : List Nat) : List (List Nat) := md5ChunksAux l.length l

/-- The sixteen digest bytes (little-endian per state word). -/
def md5Digest (msg : List Nat) : List Nat :=
  match (md5Chunks (md5Pad msg)).foldl md5Block
      (0x67452301, 0xefcdab89, 0x98badcfe, 0x10325476) with
  | (a, b, c, d) =>
    ((List.range 4).map (fun i => a / 2 ^ (8 * i) % 256)) ++
    ((List.range 4).map (fun i => b / 2 ^ (8 * i) % 256)) ++
    ((List.range 4).map (fun i => c / 2 ^ (8 * i) % 256)) ++
    ((List.range 4).map (fun i => d / 2 ^ (8 * i) % 256))

/-- A nibble as a lowercase hex character. -/
def hexChar (n : Nat) : Char := if n < 10 then Char.ofNat (48 + n) else Char.ofNat (87 + n)

/-- `hexdigest()`: the 32 lowercase hex characters of the digest. -/
def md5Hex (msg : List Nat) : List Char :=
  (md5Digest msg).flatMap (fun b => [hexChar (b / 16), hexChar (b % 16)])

/-- UTF-8 encoding of one character (`str.encode()`). -/
def utf8Bytes (c : Char) : List Nat :=
  let n := c.toNat
  if n < 0x80 then [n]
  else if n < 0x800 then [0xc0 + n / 64, 0x80 + n % 64]
  else if n < 0x10000 then [0xe0 + n / 4096, 0x80 + n / 64 % 64, 0x80 + n % 64]
  else [0xf0 + n / 262144, 0x80 + n / 4096 % 64, 0x80 + n / 64 % 64, 0x80 + n % 64]

/-- UTF-8 encoding of a character list. -/
def strBytes (s : List Char) : List Nat := s.flatMap utf8Bytes

/-- `utils.calculate_hash` (utils.py 63–73): the md5 hex digest of the
normalized code. -/
def calculate_hash (code : List Char) : List Char := md5Hex (strBytes (utilsNormalize code))

/-- `app.calculate_hash` (app.py 156–164): same digest over the weaker
normalization. -/
def app_calculate_hash (code : List Char) : List Char := md5Hex (strBytes (appNormalize code))

/-! ### `difflib.SequenceMatcher(None, a, b)`

Both call sites (`utils.calculate_code_similarity`, line 57, and the
identical copy in app.py, line 149) construct the matcher with
`isjunk=None` and the default `autojunk=True`, so `bjunk` is empty and the
only junk effect is the popularity purge of `b2j` for `len(b) >= 200`.
`find_longest_match` is the textbook difflib algorithm: a `j2len` dynamic
programming sweep (updating the best only on strictly longer matches, which
yields the lowest-`i`, then lowest-`j` tie-breaking), followed by the two
extension loops.  `get_matching_blocks` recurses on the two flanks of the
chosen block; only the total size of all blocks feeds `ratio()`. -/

/-- A `find_longest_match` result: block start in `a`, start in `b`, size. -/
structure DlMatch where
  i : Nat
  j : Nat
  k : Nat
deriving DecidableEq, Repr

/-- `b2j.setdefault(elt, []).append(i)`: append an occurrence index. -/
def b2jInsert (m : List (Char × List Nat)) (c : Char) (i : Nat) : List (Char × List Nat) :=
  match m with
  | [] => [(c, [i])]
  | (c', js) :: rest =>
    if c' = c then (c', js ++ [i]) :: rest else (c', js) :: b2jInsert rest c i

/-- The `b2j` index of `__chain_b`: each element of `b` maps to its ascending
occurrence indices. -/
def b2jBuild (b : List Char) : List (Char × List Nat) :=
  b.enum.foldl (fun m p => b2jInsert m p.2 p.1) []

/-- The autojunk purge of `__chain_b`: for `len(b) >= 200`, drop entries
occurring more than `len(b) // 100 + 1` times. -/
def b2jPurge (b : List Char) (m : List (Char × List Nat)) : List (Char × List Nat) :=
  if 200 ≤ b.length then m.filter (fun e => ¬ (b.length / 100 + 1 < e.2.length)) else m

/-- The purged `b2j` index used by `find_longest_match`. -/
def b2jOf (b : List Char) : List (Char × List Nat) := b2jPurge b (b2jBuild b)

/-- `b2j.get(elt, [])`. -/
def b2jGet (m : List (Char × List Nat)) (c : Char) : List Nat :=
  ((m.find? (fun e => e.1 == c)).map (fun e => e.2)).getD []

/-- `j2len.get(j, 0)`. -/
def j2get (m : List (Nat × Nat)) (j : Nat) : Nat :=
  ((m.find? (fun e => e.1 == j)).map (fun e => e.2)).getD 0

/-- One inner-loop step of `find_longest_match` at position `j` of `b`:
`k = j2len.get(j-1, 0) + 1` (with `j2len.get(-1, 0) = 0` when `j = 0`),
record `newj2len[j] = k`, update the best on `k > bestsize`. -/
def dlStep (prev : List (Nat × Nat)) (i : Nat) (acc : List (Nat × Nat) × DlMatch)
    (j : Nat) : List (Nat × Nat) × DlMatch :=
  let k := (if j = 0 then 0 else j2get prev (j - 1)) + 1
  ((j, k) :: acc.1,
    if acc.2.k < k then ⟨i + 1 - k, j + 1 - k, k⟩ else acc.2)

/-- The inner loop of `find_longest_match` for row `i`: iterate over
`b2j.get(a[i], [])`, skipping `j < blo` and stopping at the first
`j >= bhi` (the indices are ascending). -/
def dlRow (bj : List (Char × List Nat)) (a : List Char) (blo bhi : Nat)
    (prev : List (Nat × Nat)) (i : Nat) (best : DlMatch) : List (Nat × Nat) × DlMatch :=
  (((b2jGet bj (a.getD i (Char.ofNat 0))).filter (fun j => blo ≤ j)).takeWhile
      (fun j => j < bhi)).foldl (dlStep prev i) ([], best)

/-- The outer loop of `find_longest_match` over the rows `alo, …, ahi-1`. -/
def dlLoop (bj : List (Char × List Nat)) (a : List Char) (blo bhi : Nat) :
    List Nat → List (Nat × Nat) → DlMatch → DlMatch
  | [], _, best => best
  | i :: is, prev, best =>
    match dlRow bj a blo bhi prev i best with
    | (next, best') => dlLoop bj a blo bhi is next best'

/-- The first extension loop: grow the block backwards over equal,
non-junk characters (`bjunk` is empty here, so only equality matters). -/
def extBackAux (a b : List Char) (alo blo : Nat) : Nat → DlMatch → DlMatch
  | 0, m => m
  | fuel + 1, m =>
    if alo < m.i ∧ blo < m.j ∧
        a.getD (m.i - 1) (Char.ofNat 0) = b.getD (m.j - 1) (Char.ofNat 0) then
      extBackAux a b alo blo fuel ⟨m.i - 1, m.j - 1, m.k + 1⟩
    else m

/-- Backward extension (`m.i` strictly decreases, so `m.i` bounds its steps). -/
def extBack (a b : List Char) (alo blo : Nat) (m : DlMatch) : DlMatch :=
  extBackAux a b alo blo m.i m

/-- The second extension loop: grow the block forwards over equal characters. -/
def extFwdAux (a b : List Char) (ahi bhi : Nat) : Nat → DlMatch → DlMatch
  | 0, m => m
  | fuel + 1, m =>
    if m.i + m.k < ahi ∧ m.j + m.k < bhi ∧
        a.getD (m.i + m.k) (Char.ofNat 0) = b.getD (m.j + m.k) (Char.ofNat 0) then
      extFwdAux a b ahi bhi fuel ⟨m.i, m.j, m.k + 1⟩
    else m

/-- Forward extension (`i + k` grows towards `ahi`, bounding its steps). -/
def extFwd (a b : List Char) (ahi bhi : Nat) (m : DlMatch) : DlMatch :=
  extFwdAux a b ahi bhi (ahi - (m.i + m.k)) m

/-- `find_longest_match(alo, ahi, blo, bhi)` over the prebuilt `b2j`. -/
def find_longest_match (a b : List Char) (bj : List (Char × List Nat))
    (alo ahi blo bhi : Nat) : DlMatch :=
  extFwd a b ahi bhi (extBack a b alo blo
    (dlLoop bj a blo bhi (List.range' alo (ahi - alo)) [] ⟨alo, blo, 0⟩))

/-- Total size of all matching blocks that `get_matching_blocks` collects
from the range `(alo, ahi) × (blo, bhi)` — the queue order is irrelevant to
the sum.  Fueled: each recursion strictly shrinks `(ahi-alo)+(bhi-blo)`,
see `dlMatchesAux_fuel`. -/
def dlMatchesAux (a b : List Char) (bj : List (Char × List Nat)) :
    Nat → Nat → Nat → Nat → Nat → Nat
  | 0, _, _, _, _ => 0
  | fuel + 1, alo, ahi, blo, bhi =>
    let m := find_longest_match a b bj alo ahi blo bhi
    if m.k = 0 then 0
    else
      m.k + (if alo < m.i ∧ blo < m.j then dlMatchesAux a b bj fuel alo m.i blo m.j else 0)
          + (if m.i + m.k < ahi ∧ m.j + m.k < bhi then
              dlMatchesAux a b bj fuel (m.i + m.k) ahi (m.j + m.k) bhi else 0)

/-- `sum(triple[-1] for triple in sm.get_matching_blocks())` for
`sm = SequenceMatcher(None, a, b)`. -/
def dlMatches (a b : List Char) : Nat :=
  dlMatchesAux a b (b2jOf b) (a.length + b.length + 1) 0 a.length 0 b.length

/-- `utils.calculate_code_similarity` (utils.py 57–60) and its identical
copy in app.py (149–153): `SequenceMatcher(None, code1, code2).ratio() * 100`.
The exact value of `ratio()` is `2*M/T` over `T = len(code1)+len(code2)`
(`_calculate_ratio` returns `1.0` when `T = 0`), so the score is the
rational `mkRat (200*M) T`, and `100` when both strings are empty. -/
def calculate_code_similarity (code1 code2 : List Char) : ℚ :=
  if code1.length + code2.length = 0 then 100
  else mkRat (200 * dlMatches code1 code2) (code1.length + code2.length)

/-! ### The detection pipeline

`analyze_plagiarism_for_exam` (utils.py 86–129) reads the submission files
into the insertion-ordered dict `codes`; the filesystem part is the
caller-owned loading layer, so the embedding starts from the in-memory map
`codes : List (String × String)` (association list with unique keys, in
insertion order) and models everything from the `len(code_files) < 2`
check on.  app.py 178–217 carries a second copy whose differences (hash
pass set, `.py` handling in the reported names) are embedded separately. -/

deriving instance DecidableEq for Except

/-- One reported pair: the two entries `"学生1"`, `"学生2"` and `"相似度"`. -/
structure SimPair where
  student1 : String
  student2 : String
  similarity : ℚ
deriving DecidableEq, Repr

/-- Fueled body of `removeSub` (Python `str.replace(pat, '')`): drop every
non-overlapping occurrence of `pat`, scanning left to right. -/
def removeSubAux (pat : List Char) : Nat → List Char → List Char
  | _, [] => []
  | 0, l => l
  | fuel + 1, c :: cs =>
    if pat.isPrefixOf (c :: cs) then removeSubAux pat fuel ((c :: cs).drop pat.length)
    else c :: removeSubAux pat fuel cs

/-- Python `s.replace(pat, '')` for a nonempty `pat`. -/
def removeSub (pat l : List Char) : List Char := removeSubAux pat l.length l

/-- `student.replace('.c', '').replace('.py', '')` (utils.py 124–125). -/
def stripName (s : String) : String := ⟨removeSub (".py").data (removeSub (".c").data s.data)⟩

/-- `student.replace('.c', '')` (app.py 210–211). -/
def app_stripName (s : String) : String := ⟨removeSub (".c").data s.data⟩

/-- `utils.calculate_hash` on a Lean `String`. -/
def calculate_hashS (code : String) : String := ⟨calculate_hash code.data⟩

/-- `app.calculate_hash` on a Lean `String`. -/
def app_calculate_hashS (code : String) : String := ⟨app_calculate_hash code.data⟩

/-- `hash_map[code_hash].append(student)` for the insertion-ordered
`defaultdict(list)` of `prefilter_codes`. -/
def hmInsert (m : List (String × List String)) (h : String) (s : String) :
    List (String × List String) :=
  match m with
  | [] => [(h, [s])]
  | (h', g) :: rest =>
    if h' = h then (h', g ++ [s]) :: rest else (h', g) :: hmInsert rest h s

/-- The full `hash_map` of `prefilter_codes`, for a given hash function. -/
def hashMapOf (hash : String → String) (codes : List (String × String)) :
    List (String × List String) :=
  codes.foldl (fun m p => hmInsert m (hash p.2) p.1) []

/-- `utils.prefilter_codes` (utils.py 76–83): the hash buckets with more
than one member, in insertion order. -/
def prefilter_codes (codes : List (String × String)) : List (List String) :=
  ((hashMapOf calculate_hashS codes).map (fun e => e.2)).filter (fun g => 1 < g.length)

/-- `app.prefilter_codes` (app.py 165–174): same, over `app_calculate_hash`. -/
def app_prefilter_codes (codes : List (String × String)) : List (List String) :=
  ((hashMapOf app_calculate_hashS codes).map (fun e => e.2)).filter (fun g => 1 < g.length)

/-- `codes[student]` (dict lookup; keys are unique). -/
def lookupCode (codes : List (String × String)) (k : String) : String :=
  ((codes.find? (fun e => e.1 == k)).map (fun e => e.2)).getD ""

/-- The index pairs `(group[i], group[j])`, `i < j`, in the loop order of
`analyze_plagiarism_for_exam` (utils.py 116–117). -/
def orderedPairs : List String → List (String × String)
  | [] => []
  | x :: xs => xs.map (fun y => (x, y)) ++ orderedPairs xs

/-- `calculate_code_similarity` on Lean `String`s. -/
def similarityS (x y : String) : ℚ := calculate_code_similarity x.data y.data

/-- The error message of utils.py line 95 / app.py line 186. -/
def insufficientMsg : String := "提交数量不足，无法进行抄袭分析"

/-- `utils.analyze_plagiarism_for_exam` (utils.py 86–129), from the
in-memory `codes` map on: fewer than two submissions is the error return
`(None, "提交数量不足…")`; otherwise for every bucket and every in-bucket
pair `(i, j)`, `i < j`, the pair is reported iff its similarity exceeds 80,
carrying the file keys with `'.c'` and `'.py'` occurrences removed. -/
def analyze_plagiarism_for_exam (codes : List (String × String)) :
    Except String (List SimPair) :=
  if codes.length < 2 then Except.error insufficientMsg
  else Except.ok ((prefilter_codes codes).flatMap (fun g =>
    (orderedPairs g).filterMap (fun p =>
      let sim := similarityS (lookupCode codes p.1) (lookupCode codes p.2)
      if 80 < sim then some ⟨stripName p.1, stripName p.2, sim⟩ else none)))

/-- `app.analyze_plagiarism_for_exam` (app.py 178–217): the app.py copy —
`app_calculate_hash` buckets and only `'.c'` removed from reported names. -/
def app_analyze_plagiarism_for_exam (codes : List (String × String)) :
    Except String (List SimPair) :=
  if codes.length < 2 then Except.error insufficientMsg
  else Except.ok ((app_prefilter_codes codes).flatMap (fun g =>
    (orderedPairs g).filterMap (fun p =>
      let sim := similarityS (lookupCode codes p.1) (lookupCode codes p.2)
      if 80 < sim then some ⟨app_stripName p.1, app_stripName p.2, sim⟩ else none)))

/-! ### Geometric soundness of `find_longest_match`

The sweep only ever produces blocks inside the requested range: this is the
`difflib` invariant that makes the recursion of `get_matching_blocks` well
behaved, and it bounds the total match count by each string's length, which
is what puts `ratio()` in `[0, 1]`. -/

/-- A match lies inside the range `(alo, ahi) × (blo, bhi)`. -/
def BestOK (alo ahi blo bhi : Nat) (m : DlMatch) : Prop :=
  alo ≤ m.i ∧ m.i + m.k ≤ ahi ∧ blo ≤ m.j ∧ m.j + m.k ≤ bhi

/-- During the sweep the best is either still the initial `(alo, blo, 0)`
or already a real in-range match. -/
def BestStage (alo ahi blo bhi : Nat) (m : DlMatch) : Prop :=
  m = ⟨alo, blo, 0⟩ ∨ BestOK alo ahi blo bhi m

/-- Entries of a `j2len` row valid for processing row `iRow`: a chain of
length `k` ending at column `e.1` needs `k` columns `≥ blo` and `k` rows
`≥ alo` before `iRow`. -/
def RowOK (alo blo iRow : Nat) (m : List (Nat × Nat)) : Prop :=
  ∀ e ∈ m, e.2 + blo ≤ e.1 + 1 ∧ e.2 + alo ≤ iRow


theorem mem_takeWhile_mem_and {α : Type} (p : α → Bool) :
    ∀ l : List α, ∀ x : α, x ∈ l.takeWhile p → x ∈ l ∧ p x := by
  intro l
  induction l with
  | nil => intro x hx; simp [List.takeWhile] at hx
  | cons a l ih =>
    intro x hx
    by_cases hpa : p a
    · rw [List.takeWhile_cons_of_pos hpa] at hx
      rcases List.mem_cons.mp hx with h | h
      · subst h
        exact ⟨List.mem_cons_self _ _, hpa⟩
      · have h' := ih x h
        exact ⟨List.mem_cons_of_mem _ h'.1, h'.2⟩
    · rw [List.takeWhile_cons_of_neg hpa] at hx
      simp at hx

theorem j2get_bound {alo blo iRow : Nat} {m : List (Nat × Nat)}
    (h : RowOK alo blo iRow m) (j' : Nat) :
    j2get m j' = 0 ∨ (j2get m j' + blo ≤ j' + 1 ∧ j2get m j' + alo ≤ iRow) := by
  cases hf : m.find? (fun e => e.1 == j') with
  | none =>
    left
    simp [j2get, hf]
  | some e =>
    right
    have hv : j2get m j' = e.2 := by simp [j2get, hf]
    have hm := List.mem_of_find?_eq_some hf
    have hp : e.1 = j' := by simpa using List.find?_some hf
    have he := h e hm
    rw [hv]
    omega

theorem dlStep_ok {alo ahi blo bhi i : Nat} {prev : List (Nat × Nat)}
    {acc : List (Nat × Nat) × DlMatch} {j : Nat}
    (hprev : RowOK alo blo i prev) (hacc1 : RowOK alo blo (i + 1) acc.1)
    (hacc2 : BestStage alo ahi blo bhi acc.2)
    (hi : alo ≤ i) (hia : i < ahi) (hj : blo ≤ j) (hjb : j < bhi) :
    RowOK alo blo (i + 1) (dlStep prev i acc j).1 ∧
      BestStage alo ahi blo bhi (dlStep prev i acc j).2 := by
  have hk : ((if j = 0 then 0 else j2get prev (j - 1)) + 1) + blo ≤ j + 1 ∧
      ((if j = 0 then 0 else j2get prev (j - 1)) + 1) + alo ≤ i + 1 := by
    by_cases hj0 : j = 0
    · simp only [if_pos hj0]
      omega
    · simp only [if_neg hj0]
      rcases j2get_bound hprev (j - 1) with h0 | hb <;> omega
  constructor
  · intro e he
    simp only [dlStep, List.mem_cons] at he
    rcases he with he | he
    · subst he
      exact hk
    · exact hacc1 e he
  · simp only [dlStep]
    by_cases hlt : acc.2.k < (if j = 0 then 0 else j2get prev (j - 1)) + 1
    · rw [if_pos hlt]
      right
      unfold BestOK
      dsimp only
      omega
    · rw [if_neg hlt]
      exact hacc2

theorem dlFold_ok {alo ahi blo bhi i : Nat} {prev : List (Nat × Nat)}
    (hprev : RowOK alo blo i prev) (hi : alo ≤ i) (hia : i < ahi) :
    ∀ js : List Nat, (∀ j ∈ js, blo ≤ j ∧ j < bhi) →
      ∀ acc : List (Nat × Nat) × DlMatch, RowOK alo blo (i + 1) acc.1 →
        BestStage alo ahi blo bhi acc.2 →
        RowOK alo blo (i + 1) (js.foldl (dlStep prev i) acc).1 ∧
          BestStage alo ahi blo bhi (js.foldl (dlStep prev i) acc).2 := by
  intro js
  induction js with
  | nil =>
    intro _ acc h1 h2
    exact ⟨h1, h2⟩
  | cons j js ih =>
    intro hjs acc h1 h2
    simp only [List.foldl_cons]
    have hj := hjs j (List.mem_cons_self j js)
    have hs := dlStep_ok hprev h1 h2 hi hia hj.1 hj.2
    exact ih (fun x hx => hjs x (List.mem_cons_of_mem j hx)) _ hs.1 hs.2

theorem dlRow_ok {alo ahi blo bhi i : Nat} {bj : List (Char × List Nat)}
    {a : List Char} {prev : List (Nat × Nat)} {best : DlMatch}
    (hprev : RowOK alo blo i prev) (hbest : BestStage alo ahi blo bhi best)
    (hi : alo ≤ i) (hia : i < ahi) :
    RowOK alo blo (i + 1) (dlRow bj a blo bhi prev i best).1 ∧
      BestStage alo ahi blo bhi (dlRow bj a blo bhi prev i best).2 := by
  unfold dlRow
  refine dlFold_ok hprev hi hia _ ?_ ([], best) (by intro e he; simp at he) hbest
  intro j hj
  have h := mem_takeWhile_mem_and _ _ _ hj
  have h1 := (List.mem_filter.mp h.1).2
  have h2 := h.2
  constructor
  · simpa using h1
  · simpa using h2

theorem dlLoop_stage {bj : List (Char × List Nat)} {a : List Char}
    {alo ahi blo bhi : Nat} :
    ∀ n i0 : Nat, ∀ prev : List (Nat × Nat), ∀ best : DlMatch,
      alo ≤ i0 → (i0 + n ≤ ahi ∨ n = 0) → RowOK alo blo i0 prev →
      BestStage alo ahi blo bhi best →
      BestStage alo ahi blo bhi (dlLoop bj a blo bhi (List.range' i0 n) prev best) := by
  intro n
  induction n with
  | zero =>
    intro i0 prev best _ _ _ hb
    exact hb
  | succ n ih =>
    intro i0 prev best hi0 hn hprev hbest
    have hn' : i0 + (n + 1) ≤ ahi := by omega
    rw [List.range'_succ i0 n 1]
    simp only [dlLoop]
    have hr : RowOK alo blo (i0 + 1) (dlRow bj a blo bhi prev i0 best).1 ∧
        BestStage alo ahi blo bhi (dlRow bj a blo bhi prev i0 best).2 :=
      dlRow_ok hprev hbest hi0 (by omega)
    exact ih (i0 + 1) _ _ (by omega) (by omega) hr.1 hr.2

theorem extBackAux_stage {a b : List Char} {alo ahi blo bhi : Nat} :
    ∀ fuel : Nat, ∀ m : DlMatch, BestStage alo ahi blo bhi m →
      BestStage alo ahi blo bhi (extBackAux a b alo blo fuel m) := by
  intro fuel
  induction fuel with
  | zero =>
    intro m hm
    exact hm
  | succ f ih =>
    intro m hm
    simp only [extBackAux]
    by_cases hc : alo < m.i ∧ blo < m.j ∧
        a.getD (m.i - 1) (Char.ofNat 0) = b.getD (m.j - 1) (Char.ofNat 0)
    · rw [if_pos hc]
      apply ih
      obtain ⟨hc1, hc2, -⟩ := hc
      rcases hm with hm | hB
      · exfalso
        rw [hm] at hc1
        exact Nat.lt_irrefl alo hc1
      · right
        unfold BestOK at hB ⊢
        dsimp only
        omega
    · rw [if_neg hc]
      exact hm

theorem extFwdAux_stage {a b : List Char} {alo ahi blo bhi : Nat} :
    ∀ fuel : Nat, ∀ m : DlMatch, BestStage alo ahi blo bhi m →
      BestStage alo ahi blo bhi (extFwdAux a b ahi bhi fuel m) := by
  intro fuel
  induction fuel with
  | zero =>
    intro m hm
    exact hm
  | succ f ih =>
    intro m hm
    simp only [extFwdAux]
    by_cases hc : m.i + m.k < ahi ∧ m.j + m.k < bhi ∧
        a.getD (m.i + m.k) (Char.ofNat 0) = b.getD (m.j + m.k) (Char.ofNat 0)
    · rw [if_pos hc]
      apply ih
      obtain ⟨hc1, hc2, -⟩ := hc
      right
      rcases hm with hm | hB
      · subst hm
        dsimp only at hc1 hc2 ⊢
        unfold BestOK
        dsimp only
        omega
      · unfold BestOK at hB ⊢
        dsimp only
        omega
    · rw [if_neg hc]
      exact hm

theorem flm_stage (a b : List Char) (bj : List (Char × List Nat))
    (alo ahi blo bhi : Nat) :
    BestStage alo ahi blo bhi (find_longest_match a b bj alo ahi blo bhi) := by
  unfold find_longest_match extFwd extBack
  apply extFwdAux_stage
  apply extBackAux_stage
  apply dlLoop_stage
  · exact Nat.le_refl alo
  · by_cases h : alo ≤ ahi
    · left
      omega
    · right
      omega
  · intro e he
    simp at he
  · exact Or.inl rfl

theorem flm_k0_or_ok (a b : List Char) (bj : List (Char × List Nat))
    (alo ahi blo bhi : Nat) :
    (find_longest_match a b bj alo ahi blo bhi).k = 0 ∨
      BestOK alo ahi blo bhi (find_longest_match a b bj alo ahi blo bhi) := by
  rcases flm_stage a b bj alo ahi blo bhi with h | h
  · left
    rw [h]
  · right
    exact h

/-- The collected match total never exceeds either side of the range. -/
theorem dlMatchesAux_le (a b : List Char) (bj : List (Char × List Nat)) :
    ∀ fuel alo ahi blo bhi : Nat,
      dlMatchesAux a b bj fuel alo ahi blo bhi ≤ ahi - alo ∧
        dlMatchesAux a b bj fuel alo ahi blo bhi ≤ bhi - blo := by
  intro fuel
  induction fuel with
  | zero =>
    intro alo ahi blo bhi
    simp [dlMatchesAux]
  | succ f ih =>
    intro alo ahi blo bhi
    simp only [dlMatchesAux]
    rcases flm_k0_or_ok a b bj alo ahi blo bhi with h0 | hok
    · simp [h0]
    · by_cases hk : (find_longest_match a b bj alo ahi blo bhi).k = 0
      · simp [hk]
      · rw [if_neg hk]
        unfold BestOK at hok
        obtain ⟨h1, h2, h3, h4⟩ := hok
        have ha := ih alo (find_longest_match a b bj alo ahi blo bhi).i blo
          (find_longest_match a b bj alo ahi blo bhi).j
        have hb := ih ((find_longest_match a b bj alo ahi blo bhi).i +
            (find_longest_match a b bj alo ahi blo bhi).k) ahi
          ((find_longest_match a b bj alo ahi blo bhi).j +
            (find_longest_match a b bj alo ahi blo bhi).k) bhi
        constructor <;> split_ifs <;> omega

/-- `M ≤ len a` and `M ≤ len b` for the total match count. -/
theorem dlMatches_le (a b : List Char) :
    dlMatches a b ≤ a.length ∧ dlMatches a b ≤ b.length := by
  have h := dlMatchesAux_le a b (b2jOf b) (a.length + b.length + 1) 0 a.length 0 b.length
  simpa [dlMatches] using h

/-- The score is a percentage: `ratio() ∈ [0, 1]`, so the score is in
`[0, 100]`. -/
theorem calculate_code_similarity_bounds (a b : List Char) :
    0 ≤ calculate_code_similarity a b ∧ calculate_code_similarity a b ≤ 100 := by
  unfold calculate_code_similarity
  by_cases hT : a.length + b.length = 0
  · rw [if_pos hT]
    norm_num
  · rw [if_neg hT]
    have hM := dlMatches_le a b
    have hT' : (0 : ℚ) < ((a.length + b.length : Nat) : ℚ) := by
      exact_mod_cast Nat.pos_of_ne_zero hT
    rw [Rat.mkRat_eq_div]
    constructor
    · apply div_nonneg
      · positivity
      · positivity
    · rw [div_le_iff₀ hT']
      have h2 : (200 * dlMatches a b : Nat) ≤ 100 * (a.length + b.length) := by omega
      calc ((200 * dlMatches a b : Nat) : ℚ) ≤ ((100 * (a.length + b.length) : Nat) : ℚ) := by
            exact_mod_cast h2
        _ = 100 * ((a.length + b.length : Nat) : ℚ) := by push_cast; ring

/-! ### Structure of the bucket map

The students collected across all buckets of `hash_map` are exactly the
keys of `codes` (as a multiset); with unique keys this makes every bucket
duplicate-free and distinct buckets disjoint. -/

/-- All students stored in a bucket map. -/
def allStudents (m : List (String × List String)) : List String :=
  (m.map (fun e => e.2)).flatten

theorem hmInsert_perm (m : List (String × List String)) (h : String) (s : String) :
    List.Perm (allStudents (hmInsert m h s)) (s :: allStudents m) := by
  induction m with
  | nil => simp [hmInsert, allStudents]
  | cons e rest ih =>
    match e with
    | (h', g) =>
      by_cases he : h' = h
      · simp only [hmInsert, if_pos he, allStudents, List.map_cons, List.flatten_cons]
        rw [List.append_assoc]
        exact List.perm_middle
      · simp only [hmInsert, if_neg he, allStudents, List.map_cons, List.flatten_cons]
        exact (List.Perm.append_left g ih).trans List.perm_middle

theorem hashMapOf_perm (hash : String → String) :
    ∀ codes : List (String × String), ∀ m : List (String × List String),
      List.Perm (allStudents (codes.foldl (fun m p => hmInsert m (hash p.2) p.1) m))
        (codes.map (fun p => p.1) ++ allStudents m) := by
  intro codes
  induction codes with
  | nil =>
    intro m
    simp
  | cons p ps ih =>
    intro m
    simp only [List.foldl_cons, List.map_cons, List.cons_append]
    exact (ih _).trans ((List.Perm.append_left _ (hmInsert_perm m (hash p.2) p.1)).trans
      List.perm_middle)

theorem allStudents_perm_keys (hash : String → String) (codes : List (String × String)) :
    List.Perm (allStudents (hashMapOf hash codes)) (codes.map (fun p => p.1)) := by
  have h := hashMapOf_perm hash codes []
  simpa [allStudents, hashMapOf] using h

theorem bucket_mem_keys {hash : String → String} {codes : List (String × String)}
    {g : List String} (hg : g ∈ (hashMapOf hash codes).map (fun e => e.2))
    {s : String} (hs : s ∈ g) : s ∈ codes.map (fun p => p.1) := by
  have : s ∈ allStudents (hashMapOf hash codes) := by
    unfold allStudents
    exact List.mem_flatten.mpr ⟨g, hg, hs⟩
  exact (allStudents_perm_keys hash codes).mem_iff.mp this

theorem bucket_nodup_disjoint (hash : String → String) (codes : List (String × String))
    (hnd : (codes.map (fun p => p.1)).Nodup) :
    (∀ g ∈ (hashMapOf hash codes).map (fun e => e.2), g.Nodup) ∧
      ((hashMapOf hash codes).map (fun e => e.2)).Pairwise List.Disjoint := by
  have h1 : (allStudents (hashMapOf hash codes)).Nodup :=
    (allStudents_perm_keys hash codes).nodup_iff.mpr hnd
  exact List.nodup_flatten.mp h1

/-! ### The in-bucket index pairs -/

theorem mem_orderedPairs : ∀ g : List String, ∀ q : String × String,
    q ∈ orderedPairs g → q.1 ∈ g ∧ q.2 ∈ g := by
  intro g
  induction g with
  | nil => intro q hq; simp [orderedPairs] at hq
  | cons x xs ih =>
    intro q hq
    simp only [orderedPairs, List.mem_append, List.mem_map] at hq
    rcases hq with ⟨y, hy, hq⟩ | hq
    · subst hq
      exact ⟨List.mem_cons_self _ _, List.mem_cons_of_mem _ hy⟩
    · have h := ih q hq
      exact ⟨List.mem_cons_of_mem _ h.1, List.mem_cons_of_mem _ h.2⟩

theorem orderedPairs_ne : ∀ g : List String, g.Nodup → ∀ q : String × String,
    q ∈ orderedPairs g → q.1 ≠ q.2 := by
  intro g
  induction g with
  | nil => intro _ q hq; simp [orderedPairs] at hq
  | cons x xs ih =>
    intro hnd q hq
    simp only [orderedPairs, List.mem_append, List.mem_map] at hq
    rcases hq with ⟨y, hy, hq⟩ | hq
    · subst hq
      intro hxy
      dsimp only at hxy
      exact (List.nodup_cons.mp hnd).1 (by rw [hxy]; exact hy)
    · exact ih (List.nodup_cons.mp hnd).2 q hq

/-- Two compared pairs are the same unordered pair (in either orientation). -/
def SamePair (q r : String × String) : Prop :=
  (q.1 = r.1 ∧ q.2 = r.2) ∨ (q.1 = r.2 ∧ q.2 = r.1)

theorem orderedPairs_pairwise : ∀ g : List String, g.Nodup →
    (orderedPairs g).Pairwise (fun q r => ¬ SamePair q r) := by
  intro g
  induction g with
  | nil => intro _; simp [orderedPairs]
  | cons x xs ih =>
    intro hnd
    have hx : x ∉ xs := (List.nodup_cons.mp hnd).1
    have hxs : xs.Nodup := (List.nodup_cons.mp hnd).2
    simp only [orderedPairs]
    rw [List.pairwise_append]
    refine ⟨?_, ih hxs, ?_⟩
    · apply List.pairwise_map.mpr
      refine List.Pairwise.imp_of_mem ?_ hxs
      intro a b ha hb hab
      intro hs
      rcases hs with ⟨-, h2⟩ | ⟨h1, -⟩
      · dsimp only at h2
        exact hab h2
      · dsimp only at h1
        exact hx (by rw [h1]; exact hb)
    · intro q hq r hr
      obtain ⟨y, hy, hqy⟩ := List.mem_map.mp hq
      subst hqy
      have hrm := mem_orderedPairs _ _ hr
      intro hs
      rcases hs with ⟨h1, -⟩ | ⟨h1, -⟩
      · dsimp only at h1
        exact hx (by rw [h1]; exact hrm.1)
      · dsimp only at h1
        exact hx (by rw [h1]; exact hrm.2)

/-- The in-bucket comparison list of a run, as ordered key pairs. -/
def comparedPairs (hash : String → String) (codes : List (String × String)) :
    List (String × String) :=
  (((hashMapOf hash codes).map (fun e => e.2)).filter
    (fun g => 1 < g.length)).flatMap orderedPairs

/-- No unordered pair of submission keys is ever compared twice. -/
theorem comparedPairs_pairwise (hash : String → String) (codes : List (String × String))
    (hnd : (codes.map (fun p => p.1)).Nodup) :
    (comparedPairs hash codes).Pairwise (fun q r => ¬ SamePair q r) := by
  obtain ⟨hgn, hgd⟩ := bucket_nodup_disjoint hash codes hnd
  unfold comparedPairs
  have hflat : (((hashMapOf hash codes).map (fun e => e.2)).filter
      (fun g => 1 < g.length)).flatMap orderedPairs =
      ((((hashMapOf hash codes).map (fun e => e.2)).filter
        (fun g => 1 < g.length)).map orderedPairs).flatten := by
    simp [List.flatMap]
  rw [hflat]
  apply List.pairwise_flatten.mpr
  constructor
  · intro l hl
    obtain ⟨g, hg, hgl⟩ := List.mem_map.mp hl
    subst hgl
    exact orderedPairs_pairwise g (hgn g ((List.filter_sublist _).mem hg))
  · apply List.pairwise_map.mpr
    have hd : (((hashMapOf hash codes).map (fun e => e.2)).filter
        (fun g => 1 < g.length)).Pairwise List.Disjoint :=
      hgd.sublist (List.filter_sublist _)
    refine List.Pairwise.imp ?_ hd
    intro g₁ g₂ hdis q hq r hr hs
    have hq' := mem_orderedPairs _ _ hq
    have hr' := mem_orderedPairs _ _ hr
    rcases hs with ⟨h1, -⟩ | ⟨h1, -⟩
    · exact hdis hq'.1 (h1 ▸ hr'.1)
    · exact hdis hq'.1 (h1 ▸ hr'.2)

/-! ### Shape of the reported pair list -/

/-- The reported pairs of a run, for a given hash function and name
stripping (utils.py: `calculate_hashS`/`stripName`; app.py:
`app_calculate_hashS`/`app_stripName`). -/
def pairsOf (hash : String → String) (strip : String → String)
    (codes : List (String × String)) : List SimPair :=
  (((hashMapOf hash codes).map (fun e => e.2)).filter (fun g => 1 < g.length)).flatMap
    (fun g => (orderedPairs g).filterMap (fun p =>
      let sim := similarityS (lookupCode codes p.1) (lookupCode codes p.2)
      if 80 < sim then some ⟨strip p.1, strip p.2, sim⟩ else none))

theorem analyze_eq_pairsOf (codes : List (String × String)) :
    analyze_plagiarism_for_exam codes =
      if codes.length < 2 then Except.error insufficientMsg
      else Except.ok (pairsOf calculate_hashS stripName codes) := rfl

theorem app_analyze_eq_pairsOf (codes : List (String × String)) :
    app_analyze_plagiarism_for_exam codes =
      if codes.length < 2 then Except.error insufficientMsg
      else Except.ok (pairsOf app_calculate_hashS app_stripName codes) := rfl

theorem mem_pairsOf_elim {hash strip : String → String}
    {codes : List (String × String)} {p : SimPair}
    (hp : p ∈ pairsOf hash strip codes) :
    ∃ q : String × String, q ∈ comparedPairs hash codes ∧
      80 < similarityS (lookupCode codes q.1) (lookupCode codes q.2) ∧
      p = ⟨strip q.1, strip q.2,
        similarityS (lookupCode codes q.1) (lookupCode codes q.2)⟩ := by
  simp only [pairsOf, List.mem_flatMap, List.mem_filterMap] at hp
  obtain ⟨g, hg, q, hq, hsome⟩ := hp
  by_cases h80 : 80 < similarityS (lookupCode codes q.1) (lookupCode codes q.2)
  · rw [if_pos h80] at hsome
    refine ⟨q, ?_, h80, (Option.some.injEq _ _ ▸ hsome).symm⟩
    unfold comparedPairs
    exact List.mem_flatMap.mpr ⟨g, hg, hq⟩
  · rw [if_neg h80] at hsome
    exact absurd hsome (Option.noConfusion)

theorem mem_pairsOf_intro {hash strip : String → String}
    {codes : List (String × String)} {q : String × String}
    (hq : q ∈ comparedPairs hash codes)
    (h80 : 80 < similarityS (lookupCode codes q.1) (lookupCode codes q.2)) :
    (⟨strip q.1, strip q.2,
      similarityS (lookupCode codes q.1) (lookupCode codes q.2)⟩ : SimPair) ∈
      pairsOf hash strip codes := by
  unfold comparedPairs at hq
  obtain ⟨g, hg, hqg⟩ := List.mem_flatMap.mp hq
  simp only [pairsOf, List.mem_flatMap, List.mem_filterMap]
  exact ⟨g, hg, q, hqg, by rw [if_pos h80]⟩

theorem comparedPair_keys {hash : String → String} {codes : List (String × String)}
    {q : String × String} (hq : q ∈ comparedPairs hash codes) :
    q.1 ∈ codes.map (fun p => p.1) ∧ q.2 ∈ codes.map (fun p => p.1) := by
  unfold comparedPairs at hq
  obtain ⟨g, hg, hqg⟩ := List.mem_flatMap.mp hq
  have hg' : g ∈ (hashMapOf hash codes).map (fun e => e.2) :=
    (List.filter_sublist _).mem hg
  have hm := mem_orderedPairs g q hqg
  exact ⟨bucket_mem_keys hg' hm.1, bucket_mem_keys hg' hm.2⟩

theorem comparedPair_ne {hash : String → String} {codes : List (String × String)}
    (hnd : (codes.map (fun p => p.1)).Nodup)
    {q : String × String} (hq : q ∈ comparedPairs hash codes) : q.1 ≠ q.2 := by
  unfold comparedPairs at hq
  obtain ⟨g, hg, hqg⟩ := List.mem_flatMap.mp hq
  have hg' : g ∈ (hashMapOf hash codes).map (fun e => e.2) :=
    (List.filter_sublist _).mem hg
  exact orderedPairs_ne g ((bucket_nodup_disjoint hash codes hnd).1 g hg') q hqg

/-! ### Concrete inputs used by the claim theorems -/

/-- The spec's end-to-end scenario 2 input. -/
def scenario2Codes : List (String × String) :=
  [("s1.c", "int main()\x7breturn 0;\x7d"), ("s2.c", "int main()\x7breturn 1;\x7d")]

/-- Two raw texts engineered to score exactly 80 (`2·4/10`), sharing a
normalized hash (both normalize to `var`). -/
def boundaryCodes : List (String × String) := [("s1.c", "abcd"), ("s2.c", "abcd\n\n")]

/-- Identical submissions under keys that share the stripped name `a`. -/
def collideCodes : List (String × String) := [("a.c", "z"), ("a.py", "z")]

/-- Identical submissions under distinct `.c` keys. -/
def stripCodes : List (String × String) := [("s1.c", "z"), ("s2.c", "z")]

/-- Identical submissions: a reported pair with score 100. -/
def witnessCodes : List (String × String) := [("x.c", "aaaa"), ("y.c", "aaaa")]

/-! ### Claim theorems -/

/-- C1 (counterexample): on `{"s1.c": "int main(){return 0;}",
"s2.c": "int main(){return 1;}"}` the two normalized hashes are EQUAL
(whitespace is removed before identifier collapsing, so `return 0` becomes
the single identifier run `return0` and collapses to `var`), the two keys
share a bucket, the pair is compared, and a SimilarityPair IS reported —
the claim's "hashes differ / no shared bucket / never compared / never
reported" fails at this very input. -/
theorem scenario2_pair_is_reported :
    calculate_hashS "int main()\x7breturn 0;\x7d" =
      calculate_hashS "int main()\x7breturn 1;\x7d" ∧
    prefilter_codes scenario2Codes = [["s1.c", "s2.c"]] ∧
    ("s1.c", "s2.c") ∈ comparedPairs calculate_hashS scenario2Codes ∧
    analyze_plagiarism_for_exam scenario2Codes =
      Except.ok [⟨"s1", "s2", mkRat 2000 21⟩] := by decide

/-- C1 (amended): both scenario-2 submissions normalize to `var(){var;}`,
so they share a bucket, are compared, and the pair is reported with score
`2000/21 ≈ 95.24 > 80`. -/
theorem scenario2_amended :
    utilsNormalize ("int main()\x7breturn 0;\x7d").data =
      ("var()\x7bvar;\x7d").data ∧
    utilsNormalize ("int main()\x7breturn 1;\x7d").data =
      ("var()\x7bvar;\x7d").data ∧
    (80 : ℚ) < mkRat 2000 21 ∧
    analyze_plagiarism_for_exam scenario2Codes =
      Except.ok [⟨"s1", "s2", mkRat 2000 21⟩] := by decide

/-- C3: every reported pair's score is strictly greater than 80; every
compared (in-bucket) pair scoring above 80 is reported; and a compared
pair whose score is exactly 80 is not reported (the `boundaryCodes` pair
shares a bucket, scores exactly 80, and the output is empty). -/
theorem threshold_strictly_over_80 :
    (∀ codes : List (String × String), ∀ L : List SimPair,
      analyze_plagiarism_for_exam codes = Except.ok L →
      ∀ p ∈ L, 80 < p.similarity) ∧
    (∀ codes : List (String × String), ∀ L : List SimPair,
      analyze_plagiarism_for_exam codes = Except.ok L →
      ∀ q ∈ comparedPairs calculate_hashS codes,
        80 < similarityS (lookupCode codes q.1) (lookupCode codes q.2) →
        (⟨stripName q.1, stripName q.2,
          similarityS (lookupCode codes q.1) (lookupCode codes q.2)⟩ : SimPair) ∈ L) ∧
    (("s1.c", "s2.c") ∈ comparedPairs calculate_hashS boundaryCodes ∧
      similarityS "abcd" "abcd\n\n" = 80 ∧
      analyze_plagiarism_for_exam boundaryCodes = Except.ok []) := by
  refine ⟨?_, ?_, by decide⟩
  · intro codes L hok p hp
    by_cases hlen : codes.length < 2
    · rw [analyze_eq_pairsOf, if_pos hlen] at hok
      exact Except.noConfusion hok
    · rw [analyze_eq_pairsOf, if_neg hlen] at hok
      injection hok with hL
      subst hL
      obtain ⟨q, hq, h80, hpe⟩ := mem_pairsOf_elim hp
      rw [hpe]
      exact h80
  · intro codes L hok q hq h80
    by_cases hlen : codes.length < 2
    · rw [analyze_eq_pairsOf, if_pos hlen] at hok
      exact Except.noConfusion hok
    · rw [analyze_eq_pairsOf, if_neg hlen] at hok
      injection hok with hL
      subst hL
      exact mem_pairsOf_intro hq h80

theorem threshold_strictly_over_80_witness :
    80 < (SimPair.mk "x" "y" 100).similarity :=
  threshold_strictly_over_80.1 witnessCodes [⟨"x", "y", 100⟩] (by decide)
    ⟨"x", "y", 100⟩ (by decide)

/-- C4: with fewer than two submissions the run returns the
`InsufficientSubmissions` error (`"提交数量不足，无法进行抄袭分析"`) in both
copies, and no pair list is produced. -/
theorem insufficient_submissions_error (codes : List (String × String))
    (h : codes.length < 2) :
    analyze_plagiarism_for_exam codes = Except.error insufficientMsg ∧
    app_analyze_plagiarism_for_exam codes = Except.error insufficientMsg ∧
    ∀ L : List SimPair, analyze_plagiarism_for_exam codes ≠ Except.ok L := by
  refine ⟨?_, ?_, ?_⟩
  · rw [analyze_eq_pairsOf, if_pos h]
  · rw [app_analyze_eq_pairsOf, if_pos h]
  · intro L hL
    rw [analyze_eq_pairsOf, if_pos h] at hL
    exact Except.noConfusion hL

theorem insufficient_submissions_error_witness :
    analyze_plagiarism_for_exam [] = Except.error insufficientMsg ∧
    analyze_plagiarism_for_exam [("s1.c", "x")] = Except.error insufficientMsg :=
  ⟨(insufficient_submissions_error [] (by decide)).1,
   (insufficient_submissions_error [("s1.c", "x")] (by decide)).1⟩

/-- C5 (counterexample): the reported identifiers are NOT the original
keys: for keys `s1.c`, `s2.c` the output carries `s1`, `s2`, which are not
keys of the input map. -/
theorem reported_identifier_not_a_key :
    analyze_plagiarism_for_exam stripCodes = Except.ok [⟨"s1", "s2", 100⟩] ∧
    ("s1" : String) ∉ stripCodes.map (fun p => p.1) ∧
    ("s2" : String) ∉ stripCodes.map (fun p => p.1) := by decide

/-- C5 (amended): every reported pair carries the two originating keys
with every occurrence of `".c"` and then `".py"` removed (`str.replace`),
the two keys being distinct keys of the input map. -/
theorem reported_identifiers_are_stripped_keys
    (codes : List (String × String)) (L : List SimPair) (p : SimPair)
    (hnd : (codes.map (fun p => p.1)).Nodup)
    (hok : analyze_plagiarism_for_exam codes = Except.ok L) (hp : p ∈ L) :
    ∃ k1 k2 : String, k1 ∈ codes.map (fun p => p.1) ∧ k2 ∈ codes.map (fun p => p.1) ∧
      k1 ≠ k2 ∧ p.student1 = stripName k1 ∧ p.student2 = stripName k2 := by
  by_cases hlen : codes.length < 2
  · rw [analyze_eq_pairsOf, if_pos hlen] at hok
    exact Except.noConfusion hok
  · rw [analyze_eq_pairsOf, if_neg hlen] at hok
    injection hok with hL
    subst hL
    obtain ⟨q, hq, h80, hpe⟩ := mem_pairsOf_elim hp
    have hk := comparedPair_keys hq
    have hne := comparedPair_ne hnd hq
    exact ⟨q.1, q.2, hk.1, hk.2, hne, by rw [hpe], by rw [hpe]⟩

theorem reported_identifiers_are_stripped_keys_witness :
    ∃ k1 k2 : String,
      k1 ∈ stripCodes.map (fun p => p.1) ∧ k2 ∈ stripCodes.map (fun p => p.1) ∧
      k1 ≠ k2 ∧ (SimPair.mk "s1" "s2" 100).student1 = stripName k1 ∧
      (SimPair.mk "s1" "s2" 100).student2 = stripName k2 :=
  reported_identifiers_are_stripped_keys stripCodes [⟨"s1", "s2", 100⟩]
    ⟨"s1", "s2", 100⟩ (by decide) (by decide) (by decide)

/-- C7 (counterexample): the raw score function is not symmetric —
`SequenceMatcher` picks the lowest-`i` longest block and recurses, which
loses a match in one orientation here: 75 versus 50. -/
theorem similarity_is_asymmetric :
    similarityS "aba" "babba" = 75 ∧ similarityS "babba" "aba" = 50 := by decide

/-- C7 (amended): within one run no unordered pair of submission keys is
ever compared (hence reported) twice, in either copy of the pipeline. -/
theorem no_unordered_pair_compared_twice (codes : List (String × String))
    (hnd : (codes.map (fun p => p.1)).Nodup) :
    (comparedPairs calculate_hashS codes).Pairwise (fun q r => ¬ SamePair q r) ∧
    (comparedPairs app_calculate_hashS codes).Pairwise (fun q r => ¬ SamePair q r) :=
  ⟨comparedPairs_pairwise _ codes hnd, comparedPairs_pairwise _ codes hnd⟩

theorem no_unordered_pair_compared_twice_witness :
    (comparedPairs calculate_hashS witnessCodes).Pairwise (fun q r => ¬ SamePair q r) :=
  (no_unordered_pair_compared_twice witnessCodes (by decide)).1

/-- C8 (counterexample): with keys `a.c` and `a.py` holding identical
text, the reported pair carries the SAME identifier twice (`a`), which is
moreover not a key of the map. -/
theorem self_paired_output :
    analyze_plagiarism_for_exam collideCodes = Except.ok [⟨"a", "a", 100⟩] ∧
    ("a" : String) ∉ collideCodes.map (fun p => p.1) := by decide

/-- C8 (amended): every reported pair stems from two distinct keys of the
map; it carries their stripped names and exactly the score the scoring
function produces on the two raw texts in this run, and that score lies in
`[0, 100]`. -/
theorem reported_pair_shape_and_score_bounds
    (codes : List (String × String)) (L : List SimPair) (p : SimPair)
    (hnd : (codes.map (fun p => p.1)).Nodup)
    (hok : analyze_plagiarism_for_exam codes = Except.ok L) (hp : p ∈ L) :
    0 ≤ p.similarity ∧ p.similarity ≤ 100 ∧
    ∃ k1 k2 : String, k1 ∈ codes.map (fun p => p.1) ∧ k2 ∈ codes.map (fun p => p.1) ∧
      k1 ≠ k2 ∧
      p = ⟨stripName k1, stripName k2,
        similarityS (lookupCode codes k1) (lookupCode codes k2)⟩ := by
  by_cases hlen : codes.length < 2
  · rw [analyze_eq_pairsOf, if_pos hlen] at hok
    exact Except.noConfusion hok
  · rw [analyze_eq_pairsOf, if_neg hlen] at hok
    injection hok with hL
    subst hL
    obtain ⟨q, hq, h80, hpe⟩ := mem_pairsOf_elim hp
    have hb := calculate_code_similarity_bounds
      (lookupCode codes q.1).data (lookupCode codes q.2).data
    have hk := comparedPair_keys hq
    have hne := comparedPair_ne hnd hq
    refine ⟨?_, ?_, q.1, q.2, hk.1, hk.2, hne, hpe⟩
    · rw [hpe]
      exact hb.1
    · rw [hpe]
      exact hb.2

theorem reported_pair_shape_and_score_bounds_witness :
    0 ≤ (SimPair.mk "x" "y" 100).similarity ∧
      (SimPair.mk "x" "y" 100).similarity ≤ 100 ∧
    ∃ k1 k2 : String,
      k1 ∈ witnessCodes.map (fun p => p.1) ∧ k2 ∈ witnessCodes.map (fun p => p.1) ∧
      k1 ≠ k2 ∧
      (SimPair.mk "x" "y" 100) = ⟨stripName k1, stripName k2,
        similarityS (lookupCode witnessCodes k1) (lookupCode witnessCodes k2)⟩ :=
  reported_pair_shape_and_score_bounds witnessCodes [⟨"x", "y", 100⟩]
    ⟨"x", "y", 100⟩ (by decide) (by decide) (by decide)

/-! ### Behaviour of the comment passes on comment-shaped inputs -/

theorem cons_isPrefixOf_iff (a : Char) (as l : List Char) :
    (a :: as).isPrefixOf l = true ↔ ∃ t, l = a :: t ∧ as.isPrefixOf t := by
  cases l with
  | nil => simp [List.isPrefixOf]
  | cons b bs =>
    simp only [List.isPrefixOf, Bool.and_eq_true, beq_iff_eq]
    constructor
    · rintro ⟨h1, h2⟩
      exact ⟨bs, by rw [h1], h2⟩
    · rintro ⟨t, ht, h2⟩
      injection ht with h1 ht'
      subst h1
      subst ht'
      exact ⟨rfl, h2⟩

theorem dropThroughCloser_none_of_not_mem {c0 : Char} {cl l : List Char}
    (h : c0 ∉ l) : dropThroughCloser c0 cl l = none := by
  induction l with
  | nil => rfl
  | cons c cs ih =>
    have hne : ¬ (c0 :: cl).isPrefixOf (c :: cs) := by
      intro hp
      obtain ⟨t, ht, -⟩ := (cons_isPrefixOf_iff c0 cl (c :: cs)).mp hp
      injection ht with h1 hrest
      exact h (by rw [h1]; exact List.mem_cons_self _ _)
    simp only [dropThroughCloser, if_neg hne]
    exact ih (fun hm => h (List.mem_cons_of_mem c hm))

theorem dropThroughCloser_suffix {c0 : Char} {cl : List Char} :
    ∀ {l r : List Char}, dropThroughCloser c0 cl l = some r → List.IsSuffix r l := by
  intro l
  induction l with
  | nil => intro r h; simp [dropThroughCloser] at h
  | cons c cs ih =>
    intro r h
    by_cases hp : (c0 :: cl).isPrefixOf (c :: cs)
    · simp only [dropThroughCloser, if_pos hp, Option.some.injEq] at h
      subst h
      exact List.drop_suffix _ _
    · simp only [dropThroughCloser, if_neg hp] at h
      exact (ih h).trans (List.suffix_cons c cs)

theorem dropThroughCloser_through (c0 : Char) (body s : List Char) (h : c0 ∉ body) :
    dropThroughCloser c0 [] (body ++ c0 :: s) = some s := by
  induction body with
  | nil =>
    have hp : ([c0]).isPrefixOf (c0 :: s) = true := by
      simp [List.isPrefixOf]
    simp [dropThroughCloser, hp]
  | cons b bs ih =>
    have hne : ¬ ([c0]).isPrefixOf (b :: (bs ++ c0 :: s)) := by
      intro hp
      obtain ⟨t, ht, -⟩ := (cons_isPrefixOf_iff c0 [] _).mp hp
      injection ht with h1 hrest
      exact h (by rw [h1]; exact List.mem_cons_self _ _)
    simp only [List.cons_append, dropThroughCloser, List.append_eq]
    rw [if_neg hne]
    exact ih (fun hm => h (List.mem_cons_of_mem b hm))

/-- A line-comment pass is the identity on newline-free text. -/
theorem stripSpan_id_of_no_closer (op : List Char) (c0 : Char) (cl l : List Char)
    (h : c0 ∉ l) : stripSpan op c0 cl l = l := by
  induction l with
  | nil => rfl
  | cons c cs ih =>
    have hcs : c0 ∉ cs := fun hm => h (List.mem_cons_of_mem c hm)
    by_cases hp : op.isPrefixOf (c :: cs)
    · have hd : dropThroughCloser c0 cl ((c :: cs).drop op.length) = none := by
        apply dropThroughCloser_none_of_not_mem
        intro hm
        exact h ((List.drop_suffix op.length (c :: cs)).sublist.subset hm)
      rw [stripSpan_cons_none op c0 cl c cs hp hd, ih hcs]
    · rw [stripSpan_cons_neg op c0 cl c cs hp, ih hcs]

/-- A pass whose opener starts with an absent character is the identity. -/
theorem stripSpan_id_of_no_opener (h : Char) (op : List Char) (c0 : Char)
    (cl : List Char) : ∀ l : List Char, h ∉ l → stripSpan (h :: op) c0 cl l = l := by
  intro l
  induction l with
  | nil => intro _; rfl
  | cons c cs ih =>
    intro hm
    have hne : ¬ (h :: op).isPrefixOf (c :: cs) := by
      intro hp
      obtain ⟨t, ht, -⟩ := (cons_isPrefixOf_iff h op _).mp hp
      injection ht with h1 hrest
      exact hm (by rw [h1]; exact List.mem_cons_self _ _)
    rw [stripSpan_cons_neg _ c0 cl c cs hne, ih (fun hx => hm (List.mem_cons_of_mem c hx))]

/-- A pass scans through a prefix free of its opener's first character. -/
theorem stripSpan_passthrough (h : Char) (op : List Char) (c0 : Char) (cl : List Char) :
    ∀ pre s : List Char, h ∉ pre →
      stripSpan (h :: op) c0 cl (pre ++ s) = pre ++ stripSpan (h :: op) c0 cl s := by
  intro pre
  induction pre with
  | nil => intro s _; rfl
  | cons c cs ih =>
    intro s hm
    have hne : ¬ (h :: op).isPrefixOf (c :: (cs ++ s)) := by
      intro hp
      obtain ⟨t, ht, -⟩ := (cons_isPrefixOf_iff h op _).mp hp
      injection ht with h1 hrest
      exact hm (by rw [h1]; exact List.mem_cons_self _ _)
    rw [List.cons_append, stripSpan_cons_neg _ c0 cl _ _ hne,
      ih s (fun hx => hm (List.mem_cons_of_mem c hx))]
    rfl

/-- A span opened by its marker and closed by the one-character closer is
removed by its pass (for the line comments the closer is the newline). -/
theorem stripSpan_line_comment (h : Char) (c0 : Char) (op body s : List Char)
    (hnl : c0 ∉ body) :
    stripSpan (h :: op) c0 [] (((h :: op) ++ body) ++ c0 :: s) =
      stripSpan (h :: op) c0 [] s := by
  have hshape : ((h :: op) ++ body) ++ c0 :: s =
      h :: (op ++ (body ++ c0 :: s)) := by
    simp [List.append_assoc]
  have hp : (h :: op).isPrefixOf (h :: (op ++ (body ++ c0 :: s))) = true := by
    rw [List.isPrefixOf_iff_prefix]
    exact ⟨body ++ c0 :: s, by simp⟩
  have hdrop : (h :: (op ++ (body ++ c0 :: s))).drop (h :: op).length =
      body ++ c0 :: s := by
    have : h :: (op ++ (body ++ c0 :: s)) =
        (h :: op) ++ (body ++ c0 :: s) := by simp
    rw [this, List.drop_left]
  have hdr : dropThroughCloser c0 []
      ((h :: (op ++ (body ++ c0 :: s))).drop (h :: op).length) = some s := by
    rw [hdrop]
    exact dropThroughCloser_through _ body s hnl
  rw [hshape, stripSpan_cons_some _ _ _ _ _ _ hp hdr]

/-- Every pass output is a sublist of its input (spans are deleted, nothing
is inserted). -/
theorem stripSpan_sublist (op : List Char) (c0 : Char) (cl : List Char) :
    ∀ n : Nat, ∀ l : List Char, l.length ≤ n →
      List.Sublist (stripSpan op c0 cl l) l := by
  intro n
  induction n with
  | zero =>
    intro l hl
    have : l = [] := List.eq_nil_of_length_eq_zero (Nat.le_zero.mp hl)
    subst this
    simp [stripSpan_nil]
  | succ n ih =>
    intro l hl
    cases l with
    | nil => simp [stripSpan_nil]
    | cons c cs =>
      by_cases hp : op.isPrefixOf (c :: cs)
      · cases hdr : dropThroughCloser c0 cl ((c :: cs).drop op.length) with
        | some rest =>
          rw [stripSpan_cons_some op c0 cl c cs rest hp hdr]
          have hlen : rest.length ≤ n := by
            have h1 := dropThroughCloser_length hdr
            have h2 : ((c :: cs).drop op.length).length ≤ cs.length + 1 := by
              simp [List.length_drop]
            simp only [List.length_cons] at hl
            omega
          have hsuf : List.Sublist rest (c :: cs) :=
            ((dropThroughCloser_suffix hdr).trans
              (List.drop_suffix op.length (c :: cs))).sublist
          exact (ih rest hlen).trans hsuf
        | none =>
          rw [stripSpan_cons_none op c0 cl c cs hp hdr]
          simp only [List.length_cons] at hl
          exact (ih cs (by omega)).cons₂ c
      · rw [stripSpan_cons_neg op c0 cl c cs hp]
        simp only [List.length_cons] at hl
        exact (ih cs (by omega)).cons₂ c

theorem stripSpan_subset {op : List Char} {c0 : Char} {cl l : List Char} :
    ∀ x ∈ stripSpan op c0 cl l, x ∈ l :=
  fun x hx => (stripSpan_sublist op c0 cl l.length l (Nat.le_refl _)).subset hx

/-! ### Comment handling at the level of the two normalizers -/

theorem stripHashC_comment (body s : List Char) (hnl : ('\n' : Char) ∉ body) :
    stripHashC ((('#' : Char) :: body) ++ '\n' :: s) = stripHashC s := by
  have h := stripSpan_line_comment '#' '\n' [] body s hnl
  simpa [stripHashC] using h

theorem stripSlashC_comment (body s : List Char) (hnl : ('\n' : Char) ∉ body) :
    stripSlashC ((('/' : Char) :: '/' :: body) ++ '\n' :: s) = stripSlashC s := by
  have h := stripSpan_line_comment '/' '\n' ['/'] body s hnl
  simpa [stripSlashC] using h

/-- utils.py removes a newline-terminated `#`-comment from any submission. -/
theorem utilsNormalize_hash_comment (body s : List Char) (hnl : ('\n' : Char) ∉ body) :
    utilsNormalize ((('#' : Char) :: body) ++ '\n' :: s) = utilsNormalize s := by
  unfold utilsNormalize
  rw [stripHashC_comment body s hnl]

/-- utils.py removes a newline-terminated `//`-comment (the `#` pass ran
first, so the comment body must be free of `#`). -/
theorem utilsNormalize_slash_comment (body s : List Char)
    (hnl : ('\n' : Char) ∉ body) (hh : ('#' : Char) ∉ body) :
    utilsNormalize ((('/' : Char) :: '/' :: body) ++ '\n' :: s) = utilsNormalize s := by
  unfold utilsNormalize
  have hpre : ('#' : Char) ∉ ((('/' : Char) :: '/' :: body) ++ ['\n']) := by
    intro hm
    rcases List.mem_append.mp hm with h | h
    · rw [List.mem_cons, List.mem_cons] at h
      rcases h with h | h | h
      · exact absurd h (by decide)
      · exact absurd h (by decide)
      · exact hh h
    · rw [List.mem_singleton] at h
      exact absurd h (by decide)
  have hshape : (('/' : Char) :: '/' :: body) ++ '\n' :: s =
      ((('/' : Char) :: '/' :: body) ++ ['\n']) ++ s := by simp
  have h1 : stripHashC (((('/' : Char) :: '/' :: body) ++ ['\n']) ++ s) =
      ((('/' : Char) :: '/' :: body) ++ ['\n']) ++ stripHashC s := by
    unfold stripHashC
    exact stripSpan_passthrough '#' [] '\n' [] _ s hpre
  have hshape2 : ((('/' : Char) :: '/' :: body) ++ ['\n']) ++ stripHashC s =
      (('/' : Char) :: '/' :: body) ++ '\n' :: stripHashC s := by simp
  rw [hshape, h1, hshape2, stripSlashC_comment body _ hnl]

/-- app.py removes a newline-terminated `//`-comment. -/
theorem appNormalize_slash_comment (body s : List Char) (hnl : ('\n' : Char) ∉ body) :
    appNormalize ((('/' : Char) :: '/' :: body) ++ '\n' :: s) = appNormalize s := by
  unfold appNormalize
  rw [stripSlashC_comment body s hnl]

/-- app.py does NOT strip `#`-comments: the `#` stays at the head of the
normalized output. -/
theorem appNormalize_hash_head (body s : List Char) (hsl : ('/' : Char) ∉ body) :
    (appNormalize ((('#' : Char) :: body) ++ '\n' :: s)).head? = some '#' := by
  unfold appNormalize
  have hpre : ('/' : Char) ∉ ((('#' : Char) :: body) ++ ['\n']) := by
    intro hm
    rcases List.mem_append.mp hm with h | h
    · rw [List.mem_cons] at h
      rcases h with h | h
      · exact absurd h (by decide)
      · exact hsl h
    · rw [List.mem_singleton] at h
      exact absurd h (by decide)
  have hshape : (('#' : Char) :: body) ++ '\n' :: s =
      ((('#' : Char) :: body) ++ ['\n']) ++ s := by simp
  have h1 : stripSlashC (((('#' : Char) :: body) ++ ['\n']) ++ s) =
      ((('#' : Char) :: body) ++ ['\n']) ++ stripSlashC s := by
    unfold stripSlashC
    exact stripSpan_passthrough '/' ['/'] '\n' [] _ s hpre
  have h2 : stripBlockC (((('#' : Char) :: body) ++ ['\n']) ++ stripSlashC s) =
      ((('#' : Char) :: body) ++ ['\n']) ++ stripBlockC (stripSlashC s) := by
    unfold stripBlockC
    exact stripSpan_passthrough '/' ['*'] '*' ['/'] _ _ hpre
  rw [hshape, h1, h2]
  have hshape2 : ((('#' : Char) :: body) ++ ['\n']) ++ stripBlockC (stripSlashC s) =
      '#' :: (body ++ '\n' :: stripBlockC (stripSlashC s)) := by simp
  rw [hshape2]
  have hws : wsFilter ('#' :: (body ++ '\n' :: stripBlockC (stripSlashC s))) =
      '#' :: wsFilter (body ++ '\n' :: stripBlockC (stripSlashC s)) := rfl
  rw [hws, replaceIdents_other '#' _ (by decide)]
  rfl

/-- C2 (counterexample): there is no sourceKind dispatch — utils.py strips
`#`-comments from a c-like submission too (the two texts normalize
identically), while app.py never strips them. -/
theorem comment_stripping_not_dispatched :
    utilsNormalize (("#q\nint a;").data) = utilsNormalize (("int a;").data) ∧
    appNormalize (("#q\nint a;").data) ≠ appNormalize (("int a;").data) := by decide

/-- C2 (amended): neither copy of `calculate_hash` receives a source kind.
utils.py unconditionally applies both the python and the c-like
line-comment passes to every submission; app.py unconditionally applies
only the c-like ones, and a python `#`-comment survives it. -/
theorem stripping_passes_fixed_per_module (body s : List Char)
    (hnl : ('\n' : Char) ∉ body) (hh : ('#' : Char) ∉ body)
    (hsl : ('/' : Char) ∉ body) :
    utilsNormalize ((('#' : Char) :: body) ++ '\n' :: s) = utilsNormalize s ∧
    utilsNormalize ((('/' : Char) :: '/' :: body) ++ '\n' :: s) = utilsNormalize s ∧
    appNormalize ((('/' : Char) :: '/' :: body) ++ '\n' :: s) = appNormalize s ∧
    (appNormalize ((('#' : Char) :: body) ++ '\n' :: s)).head? = some '#' :=
  ⟨utilsNormalize_hash_comment body s hnl,
   utilsNormalize_slash_comment body s hnl hh,
   appNormalize_slash_comment body s hnl,
   appNormalize_hash_head body s hsl⟩

theorem stripping_passes_fixed_per_module_witness :
    utilsNormalize ((('#' : Char) :: ("q").data) ++ '\n' :: ("w;").data) =
      utilsNormalize (("w;").data) ∧
    utilsNormalize ((('/' : Char) :: '/' :: ("q").data) ++ '\n' :: ("w;").data) =
      utilsNormalize (("w;").data) ∧
    appNormalize ((('/' : Char) :: '/' :: ("q").data) ++ '\n' :: ("w;").data) =
      appNormalize (("w;").data) ∧
    (appNormalize ((('#' : Char) :: ("q").data) ++ '\n' :: ("w;").data)).head? =
      some '#' :=
  stripping_passes_fixed_per_module (("q").data) (("w;").data)
    (by decide) (by decide) (by decide)

/-- C6 (counterexample): a line comment on the final line with no trailing
newline is NOT removed — `a=1//x` keeps its comment (as `//var`) and hashes
differently from `a=1`; same for a trailing `#`-comment. -/
theorem trailing_line_comment_not_removed :
    utilsNormalize (("a=1//x").data) = ("var=1//var").data ∧
    utilsNormalize (("b#y").data) = ("var#var").data ∧
    calculate_hashS "a=1//x" ≠ calculate_hashS "a=1" := by decide

/-- C6 (amended): a line comment is removed exactly when a newline
terminates it: newline-terminated `#...` and `//...` comments vanish from
the normalization, while on newline-free text both line-comment passes are
the identity. -/
theorem line_comment_needs_newline :
    (∀ body s : List Char, ('\n' : Char) ∉ body →
      utilsNormalize ((('#' : Char) :: body) ++ '\n' :: s) = utilsNormalize s) ∧
    (∀ body s : List Char, ('\n' : Char) ∉ body → ('#' : Char) ∉ body →
      utilsNormalize ((('/' : Char) :: '/' :: body) ++ '\n' :: s) = utilsNormalize s) ∧
    (∀ l : List Char, ('\n' : Char) ∉ l → stripHashC l = l ∧ stripSlashC l = l) := by
  refine ⟨utilsNormalize_hash_comment, utilsNormalize_slash_comment, ?_⟩
  intro l hnl
  exact ⟨stripSpan_id_of_no_closer _ _ _ l hnl, stripSpan_id_of_no_closer _ _ _ l hnl⟩

theorem line_comment_needs_newline_witness :
    utilsNormalize ((('#' : Char) :: ("q").data) ++ '\n' :: ("w").data) =
      utilsNormalize (("w").data) ∧
    (stripHashC (("a=1//x").data) = ("a=1//x").data ∧
      stripSlashC (("a=1//x").data) = ("a=1//x").data) :=
  ⟨line_comment_needs_newline.1 (("q").data) (("w").data) (by decide),
   line_comment_needs_newline.2.2 (("a=1//x").data) (by decide)⟩

/-! ### Agreement of the two module copies on pass-inert inputs -/

/-- When the three extra utils.py passes cannot fire (`#`, single quote and
double quote absent), the two normalizations coincide. -/
theorem utils_app_normalize_agree (code : List Char) (h1 : ('#' : Char) ∉ code)
    (h2 : sqChar ∉ code) (h3 : ('"' : Char) ∉ code) :
    utilsNormalize code = appNormalize code := by
  unfold utilsNormalize appNormalize stripHashC stripSq3 stripDq3
    stripBlockC stripSlashC
  rw [stripSpan_id_of_no_opener '#' [] '\n' [] code h1]
  have hsub : ∀ x ∈ stripSpan ['/', '*'] '*' ['/']
      (stripSpan ['/', '/'] '\n' [] code), x ∈ code :=
    fun x hx => stripSpan_subset _ (stripSpan_subset _ hx)
  rw [stripSpan_id_of_no_opener sqChar [sqChar, sqChar] sqChar [sqChar, sqChar] _
    (fun hm => h2 (hsub _ hm))]
  rw [stripSpan_id_of_no_opener '"' ['"', '"'] '"' ['"', '"'] _
    (fun hm => h3 (hsub _ hm))]

theorem hashMapOf_congr (h1 h2 : String → String) :
    ∀ codes : List (String × String), ∀ m : List (String × List String),
      (∀ p ∈ codes, h1 p.2 = h2 p.2) →
      codes.foldl (fun m p => hmInsert m (h1 p.2) p.1) m =
        codes.foldl (fun m p => hmInsert m (h2 p.2) p.1) m := by
  intro codes
  induction codes with
  | nil => intro m _; rfl
  | cons p ps ih =>
    intro m hagree
    simp only [List.foldl_cons]
    rw [hagree p (List.mem_cons_self _ _)]
    exact ih _ (fun q hq => hagree q (List.mem_cons_of_mem _ hq))

theorem pairsOf_congr (h1 h2 s1 s2 : String → String) (codes : List (String × String))
    (hh : hashMapOf h1 codes = hashMapOf h2 codes)
    (hs : ∀ k ∈ codes.map (fun p => p.1), s1 k = s2 k) :
    pairsOf h1 s1 codes = pairsOf h2 s2 codes := by
  unfold pairsOf
  rw [← hh]
  have hflat : ∀ F G : List String → List SimPair,
      (∀ g ∈ ((hashMapOf h1 codes).map (fun e => e.2)).filter (fun g => 1 < g.length),
        F g = G g) →
      (((hashMapOf h1 codes).map (fun e => e.2)).filter
        (fun g => 1 < g.length)).flatMap F =
      (((hashMapOf h1 codes).map (fun e => e.2)).filter
        (fun g => 1 < g.length)).flatMap G := by
    intro F G hFG
    simp only [List.flatMap]
    exact congrArg List.flatten (List.map_congr_left hFG)
  apply hflat
  intro g hg
  apply List.filterMap_congr
  intro q hq
  have hg' : g ∈ (hashMapOf h1 codes).map (fun e => e.2) :=
    (List.filter_sublist _).mem hg
  have hqm := mem_orderedPairs g q hq
  have hk1 := bucket_mem_keys hg' hqm.1
  have hk2 := bucket_mem_keys hg' hqm.2
  rw [hs q.1 hk1, hs q.2 hk2]

/-- C10 (counterexample): the two copies are not extensionally equal — the
digests of `"#a\nb"` differ, and on one in-memory map the utils.py analyzer
reports a pair while the app.py analyzer reports none. -/
theorem duplicated_copies_diverge :
    calculate_hashS "#a\nb" ≠ app_calculate_hashS "#a\nb" ∧
    analyze_plagiarism_for_exam
      [("a.c", "int x; int y; int z;#c\n"), ("b.c", "int x; int y; int z;")] =
      Except.ok [⟨"a", "b", mkRat 4000 43⟩] ∧
    app_analyze_plagiarism_for_exam
      [("a.c", "int x; int y; int z;#c\n"), ("b.c", "int x; int y; int z;")] =
      Except.ok [] := by decide

/-- C10 (amended): the two `calculate_hash` copies agree exactly where the
extra utils.py passes are inert — on submissions free of `#` and of single
and double quotes — and on such maps (whose keys also strip identically,
i.e. `.py`-free after `.c` removal) the two analyzers agree. -/
theorem duplicated_copies_agree_when_passes_inert :
    (∀ code : List Char, ('#' : Char) ∉ code → sqChar ∉ code →
      ('"' : Char) ∉ code → calculate_hash code = app_calculate_hash code) ∧
    (∀ codes : List (String × String),
      (∀ p ∈ codes, ('#' : Char) ∉ p.2.data ∧ sqChar ∉ p.2.data ∧
        ('"' : Char) ∉ p.2.data) →
      (∀ p ∈ codes, stripName p.1 = app_stripName p.1) →
      analyze_plagiarism_for_exam codes = app_analyze_plagiarism_for_exam codes) := by
  constructor
  · intro code h1 h2 h3
    unfold calculate_hash app_calculate_hash
    rw [utils_app_normalize_agree code h1 h2 h3]
  · intro codes hv hk
    rw [analyze_eq_pairsOf, app_analyze_eq_pairsOf]
    by_cases hlen : codes.length < 2
    · rw [if_pos hlen, if_pos hlen]
    · rw [if_neg hlen, if_neg hlen]
      have hhash : ∀ p ∈ codes, calculate_hashS p.2 = app_calculate_hashS p.2 := by
        intro p hp
        unfold calculate_hashS app_calculate_hashS calculate_hash app_calculate_hash
        rw [utils_app_normalize_agree p.2.data (hv p hp).1 (hv p hp).2.1 (hv p hp).2.2]
      have hm : hashMapOf calculate_hashS codes = hashMapOf app_calculate_hashS codes :=
        hashMapOf_congr _ _ codes [] hhash
      have hstrip : ∀ k ∈ codes.map (fun p => p.1), stripName k = app_stripName k := by
        intro k hks
        obtain ⟨p, hp, hpk⟩ := List.mem_map.mp hks
        rw [← hpk]
        exact hk p hp
      exact congrArg Except.ok (pairsOf_congr _ _ _ _ codes hm hstrip)

theorem duplicated_copies_agree_when_passes_inert_witness :
    calculate_hash (("int q;//r\n").data) = app_calculate_hash (("int q;//r\n").data) ∧
    analyze_plagiarism_for_exam [("a.c", "w1"), ("b.c", "w2")] =
      app_analyze_plagiarism_for_exam [("a.c", "w1"), ("b.c", "w2")] :=
  ⟨duplicated_copies_agree_when_passes_inert.1 (("int q;//r\n").data)
      (by decide) (by decide) (by decide),
   duplicated_copies_agree_when_passes_inert.2 [("a.c", "w1"), ("b.c", "w2")]
      (by decide) (by decide)⟩

/-! ### Identifier renaming (claim C9)

A renaming rewrites every maximal identifier run (the matches of
`[a-zA-Z_][a-zA-Z0-9_]*`) through a function producing well-formed
identifiers, leaving all other characters in place.  `SkelRel` relates two
texts that differ only in the names of corresponding identifier runs; the
normalization collapses every run to `var`, so it cannot distinguish
related texts. -/

/-- A nonempty well-formed identifier: `[a-zA-Z_][a-zA-Z0-9_]*`. -/
def validIdent (t : List Char) : Bool :=
  match t with
  | [] => false
  | c :: cs => isIdStart c && cs.all isIdCont

/-- Fueled body of `renameIdents`. -/
def renameIdentsAux (f : List Char → List Char) : Nat → List Char → List Char
  | _, [] => []
  | 0, l => l
  | fuel + 1, c :: cs =>
    if isIdStart c then
      f (c :: cs.takeWhile isIdCont) ++ renameIdentsAux f fuel (cs.dropWhile isIdCont)
    else c :: renameIdentsAux f fuel cs

/-- Rename every maximal identifier run of `l` through `f`. -/
def renameIdents (f : List Char → List Char) (l : List Char) : List Char :=
  renameIdentsAux f l.length l

theorem renameIdentsAux_fuel (f : List Char → List Char) :
    ∀ f₁ : Nat, ∀ f₂ : Nat, ∀ l : List Char, l.length ≤ f₁ → l.length ≤ f₂ →
      renameIdentsAux f f₁ l = renameIdentsAux f f₂ l := by
  intro f₁
  induction f₁ with
  | zero =>
    intro f₂ l h1 _
    have : l = [] := List.eq_nil_of_length_eq_zero (Nat.le_zero.mp h1)
    subst this
    cases f₂ <;> rfl
  | succ fu ih =>
    intro f₂ l h1 h2
    cases l with
    | nil => cases f₂ <;> rfl
    | cons c cs =>
      cases f₂ with
      | zero => simp at h2
      | succ f₂ =>
        simp only [renameIdentsAux, List.length_cons] at *
        by_cases hs : isIdStart c
        · simp only [if_pos hs]
          have := dropWhile_length_le isIdCont cs
          rw [ih f₂ (cs.dropWhile isIdCont) (by omega) (by omega)]
        · simp only [if_neg hs]
          rw [ih f₂ cs (by omega) (by omega)]

theorem renameIdents_start (f : List Char → List Char) (c : Char) (cs : List Char)
    (hs : isIdStart c) :
    renameIdents f (c :: cs) =
      f (c :: cs.takeWhile isIdCont) ++ renameIdents f (cs.dropWhile isIdCont) := by
  unfold renameIdents
  simp only [List.length_cons, renameIdentsAux, if_pos hs]
  have := dropWhile_length_le isIdCont cs
  exact congrArg _ (renameIdentsAux_fuel f cs.length (cs.dropWhile isIdCont).length _
    (by omega) (by omega))

theorem renameIdents_other (f : List Char → List Char) (c : Char) (cs : List Char)
    (hs : ¬ isIdStart c) :
    renameIdents f (c :: cs) = c :: renameIdents f cs := by
  unfold renameIdents
  simp only [List.length_cons, renameIdentsAux, if_neg hs]

/-- Texts with the same non-identifier skeleton, identifier run by
identifier run. -/
inductive SkelRel : List Char → List Char → Prop
  | nil : SkelRel [] []
  | char (c : Char) {s t : List Char} : isIdStart c = false → SkelRel s t →
      SkelRel (c :: s) (c :: t)
  | tok {run run' s t : List Char} : validIdent run → validIdent run' →
      SkelRel s t → SkelRel (run ++ s) (run' ++ t)

theorem validIdent_ne_nil {run : List Char} (h : validIdent run) : run ≠ [] := by
  intro he
  subst he
  simp [validIdent] at h

theorem validIdent_head_start {run : List Char} (h : validIdent run) :
    ∃ c cs, run = c :: cs ∧ isIdStart c = true ∧ ∀ x ∈ cs, isIdCont x = true := by
  cases run with
  | nil => simp [validIdent] at h
  | cons c cs =>
    simp only [validIdent, Bool.and_eq_true, List.all_eq_true] at h
    exact ⟨c, cs, rfl, h.1, h.2⟩

theorem validIdent_all_cont {run : List Char} (h : validIdent run) :
    ∀ x ∈ run, isIdCont x = true := by
  obtain ⟨c, cs, hrun, hst, hall⟩ := validIdent_head_start h
  subst hrun
  intro x hx
  rcases List.mem_cons.mp hx with hx | hx
  · subst hx
    simp [isIdCont, hst]
  · exact hall x hx

theorem SkelRel.symm : ∀ {s t : List Char}, SkelRel s t → SkelRel t s := by
  intro s t h
  induction h with
  | nil => exact SkelRel.nil
  | char c hc _ ih => exact SkelRel.char c hc ih
  | tok hv hv' _ ih => exact SkelRel.tok hv' hv ih

theorem skel_nil_left : ∀ {u v : List Char}, SkelRel u v → u = [] → v = [] := by
  intro u v h
  induction h with
  | nil => intro _; rfl
  | char c hc hrel ih => intro he; exact absurd he (by simp)
  | tok hv hv' hrel ih =>
    intro he
    obtain ⟨hr, -⟩ := List.append_eq_nil.mp he
    exact absurd hr (validIdent_ne_nil hv)

theorem skel_char_inv : ∀ {u v : List Char}, SkelRel u v → ∀ {c : Char},
    ∀ {s : List Char}, u = c :: s → isIdStart c = false →
      ∃ t, v = c :: t ∧ SkelRel s t := by
  intro u v h
  induction h with
  | nil =>
    intro c s he _
    exact absurd he (by simp)
  | char c' hc' hrel ih =>
    intro c s he hcs
    injection he with h1 h2
    subst h1
    subst h2
    exact ⟨_, rfl, hrel⟩
  | tok hv hv' hrel ih =>
    intro c s he hcs
    obtain ⟨c', cs', hrun, hstart, -⟩ := validIdent_head_start hv
    subst hrun
    rw [List.cons_append] at he
    injection he with h1 h2
    subst h1
    rw [hstart] at hcs
    exact absurd hcs (by simp)

theorem skel_prefix_transfer : ∀ pat : List Char,
    (∀ c ∈ pat, isIdStart c = false) → ∀ {s t : List Char}, SkelRel s t →
      pat.isPrefixOf s →
      pat.isPrefixOf t = true ∧ SkelRel (s.drop pat.length) (t.drop pat.length) := by
  intro pat
  induction pat with
  | nil =>
    intro _ s t h _
    constructor
    · simp [List.isPrefixOf]
    · simpa using h
  | cons c pat' ih =>
    intro hni s t hrel hp
    obtain ⟨s', hs, hp'⟩ := (cons_isPrefixOf_iff c pat' s).mp hp
    subst hs
    obtain ⟨t', ht, hrel'⟩ := skel_char_inv hrel rfl (hni c (List.mem_cons_self _ _))
    subst ht
    obtain ⟨hpt, hdrop⟩ := ih (fun x hx => hni x (List.mem_cons_of_mem _ hx)) hrel' hp'
    constructor
    · exact (cons_isPrefixOf_iff c pat' _).mpr ⟨t', rfl, hpt⟩
    · simpa using hdrop

theorem idCont_not_space {c : Char} (h : isIdCont c = true) : isPySpace c = false := by
  cases hsp : isPySpace c
  · rfl
  · exfalso
    unfold isPySpace at hsp
    simp only [Bool.or_eq_true, decide_eq_true_eq] at hsp
    rcases hsp with ((((h1 | h1) | h1) | h1) | h1) | h1 <;> (subst h1; exact absurd h (by decide))

theorem dropWhile_append_of_all {p : Char → Bool} :
    ∀ run : List Char, (∀ x ∈ run, p x = true) → ∀ rest : List Char,
      (run ++ rest).dropWhile p = rest.dropWhile p := by
  intro run
  induction run with
  | nil => intro _ rest; rfl
  | cons r rs ih =>
    intro hall rest
    rw [List.cons_append, List.dropWhile_cons_of_pos (hall r (List.mem_cons_self _ _))]
    exact ih (fun x hx => hall x (List.mem_cons_of_mem _ hx)) rest

theorem dropThroughCloser_skip_run (c0 : Char) (cl : List Char)
    (hc0 : isIdCont c0 = false) :
    ∀ run : List Char, (∀ x ∈ run, isIdCont x = true) → ∀ rest : List Char,
      dropThroughCloser c0 cl (run ++ rest) = dropThroughCloser c0 cl rest := by
  intro run
  induction run with
  | nil => intro _ rest; rfl
  | cons r rs ih =>
    intro hall rest
    have hne : ¬ (c0 :: cl).isPrefixOf (r :: (rs ++ rest)) := by
      intro hp
      obtain ⟨u, hu, -⟩ := (cons_isPrefixOf_iff _ _ _).mp hp
      injection hu with h1 hrest2
      rw [← h1] at hc0
      rw [hall r (List.mem_cons_self _ _)] at hc0
      exact absurd hc0 (by simp)
    simp only [List.cons_append, dropThroughCloser, List.append_eq]
    rw [if_neg hne]
    exact ih (fun x hx => hall x (List.mem_cons_of_mem _ hx)) rest

theorem skel_dropThroughCloser (c0 : Char) (cl : List Char)
    (hc0s : isIdStart c0 = false) (hc0c : isIdCont c0 = false)
    (hcl : ∀ x ∈ cl, isIdStart x = false) :
    ∀ {s t : List Char}, SkelRel s t →
      (dropThroughCloser c0 cl s = none ∧ dropThroughCloser c0 cl t = none) ∨
      (∃ s' t', dropThroughCloser c0 cl s = some s' ∧
        dropThroughCloser c0 cl t = some t' ∧ SkelRel s' t') := by
  have hall : ∀ x ∈ c0 :: cl, isIdStart x = false := by
    intro x hx
    rcases List.mem_cons.mp hx with hx | hx
    · subst hx
      exact hc0s
    · exact hcl x hx
  intro s t h
  induction h with
  | nil =>
    left
    exact ⟨rfl, rfl⟩
  | char c hc hrel ih =>
    rename_i s₁ t₁
    by_cases hp : (c0 :: cl).isPrefixOf (c :: s₁)
    · obtain ⟨hpt, hdrop⟩ :=
        skel_prefix_transfer (c0 :: cl) hall (SkelRel.char c hc hrel) hp
      right
      refine ⟨_, _, ?_, ?_, hdrop⟩
      · simp only [dropThroughCloser]
        rw [if_pos hp]
      · simp only [dropThroughCloser]
        rw [if_pos hpt]
    · have hpt : ¬ (c0 :: cl).isPrefixOf (c :: t₁) := by
        intro hp'
        exact hp (skel_prefix_transfer (c0 :: cl) hall
          (SkelRel.char c hc hrel).symm hp').1
      simp only [dropThroughCloser]
      rw [if_neg hp, if_neg hpt]
      exact ih
  | tok hv hv' hrel ih =>
    rw [dropThroughCloser_skip_run c0 cl hc0c _ (validIdent_all_cont hv) _,
      dropThroughCloser_skip_run c0 cl hc0c _ (validIdent_all_cont hv') _]
    exact ih

theorem skel_stripSpan (h0 : Char) (op : List Char) (c0 : Char) (cl : List Char)
    (hh0s : isIdStart h0 = false) (hh0c : isIdCont h0 = false)
    (hop : ∀ x ∈ op, isIdStart x = false)
    (hc0s : isIdStart c0 = false) (hc0c : isIdCont c0 = false)
    (hcl : ∀ x ∈ cl, isIdStart x = false) :
    ∀ n : Nat, ∀ s t : List Char, s.length ≤ n → SkelRel s t →
      SkelRel (stripSpan (h0 :: op) c0 cl s) (stripSpan (h0 :: op) c0 cl t) := by
  have hallop : ∀ x ∈ h0 :: op, isIdStart x = false := by
    intro x hx
    rcases List.mem_cons.mp hx with hx | hx
    · subst hx
      exact hh0s
    · exact hop x hx
  intro n
  induction n with
  | zero =>
    intro s t hl hrel
    have hs : s = [] := List.eq_nil_of_length_eq_zero (Nat.le_zero.mp hl)
    subst hs
    rw [skel_nil_left hrel rfl]
    exact SkelRel.nil
  | succ n ih =>
    intro s t hl hrel
    cases hrel with
    | nil => exact SkelRel.nil
    | char c hc hrel' =>
      rename_i s₁ t₁
      by_cases hp : (h0 :: op).isPrefixOf (c :: s₁)
      · have htrans :=
          skel_prefix_transfer (h0 :: op) hallop (SkelRel.char c hc hrel') hp
        rcases skel_dropThroughCloser c0 cl hc0s hc0c hcl htrans.2 with
          ⟨hn1, hn2⟩ | ⟨s', t', h1, h2, hrel''⟩
        · rw [stripSpan_cons_none _ _ _ _ _ hp hn1,
            stripSpan_cons_none _ _ _ _ _ htrans.1 hn2]
          simp only [List.length_cons] at hl
          exact SkelRel.char c hc (ih s₁ t₁ (by omega) hrel')
        · rw [stripSpan_cons_some _ _ _ _ _ _ hp h1,
            stripSpan_cons_some _ _ _ _ _ _ htrans.1 h2]
          have hlen1 := dropThroughCloser_length h1
          have hlen2 : ((c :: s₁).drop (h0 :: op).length).length ≤ s₁.length := by
            simp [List.length_drop, List.length_cons]
          simp only [List.length_cons] at hl
          exact ih s' t' (by omega) hrel''
      · have hpt : ¬ (h0 :: op).isPrefixOf (c :: t₁) := by
          intro hp'
          exact hp (skel_prefix_transfer (h0 :: op) hallop
            (SkelRel.char c hc hrel').symm hp').1
        rw [stripSpan_cons_neg _ _ _ _ _ hp, stripSpan_cons_neg _ _ _ _ _ hpt]
        simp only [List.length_cons] at hl
        exact SkelRel.char c hc (ih s₁ t₁ (by omega) hrel')
    | tok hv hv' hrel' =>
      rename_i run run' s₁ t₁
      have hnr : h0 ∉ run := fun hm => by
        have := validIdent_all_cont hv h0 hm
        rw [this] at hh0c
        exact absurd hh0c (by simp)
      have hnr' : h0 ∉ run' := fun hm => by
        have := validIdent_all_cont hv' h0 hm
        rw [this] at hh0c
        exact absurd hh0c (by simp)
      rw [stripSpan_passthrough h0 op c0 cl run s₁ hnr,
        stripSpan_passthrough h0 op c0 cl run' t₁ hnr']
      have hlen : s₁.length ≤ n := by
        have h1 : run.length ≠ 0 := by
          intro he
          exact validIdent_ne_nil hv (List.eq_nil_of_length_eq_zero he)
        have h2 : (run ++ s₁).length = run.length + s₁.length := by
          simp [List.length_append]
        omega
      exact SkelRel.tok hv hv' (ih s₁ t₁ hlen hrel')

theorem skel_wsFilter : ∀ {s t : List Char}, SkelRel s t →
    SkelRel (wsFilter s) (wsFilter t) := by
  intro s t h
  induction h with
  | nil => exact SkelRel.nil
  | char c hc hrel ih =>
    by_cases hws : isPySpace c
    · simp only [wsFilter, List.filter_cons, hws]
      simpa [wsFilter] using ih
    · have hkeep : (!isPySpace c) = true := by
        simp [hws]
      simp only [wsFilter, List.filter_cons, hkeep]
      exact SkelRel.char c hc ih
  | tok hv hv' hrel ih =>
    have hrun : ∀ {r : List Char}, validIdent r → List.filter (fun c => !isPySpace c) r = r := by
      intro r hr
      apply List.filter_eq_self.mpr
      intro x hx
      simp [idCont_not_space (validIdent_all_cont hr x hx)]
    simp only [wsFilter, List.filter_append, hrun hv, hrun hv']
    exact SkelRel.tok hv hv' ih

theorem skel_dropWhile_cont : ∀ {s t : List Char}, SkelRel s t →
    SkelRel (s.dropWhile isIdCont) (t.dropWhile isIdCont) := by
  intro s t h
  induction h with
  | nil => exact SkelRel.nil
  | char c hc hrel ih =>
    by_cases hcc : isIdCont c
    · rw [List.dropWhile_cons_of_pos hcc, List.dropWhile_cons_of_pos hcc]
      exact ih
    · rw [List.dropWhile_cons_of_neg hcc, List.dropWhile_cons_of_neg hcc]
      exact SkelRel.char c hc hrel
  | tok hv hv' hrel ih =>
    rw [dropWhile_append_of_all _ (validIdent_all_cont hv) _,
      dropWhile_append_of_all _ (validIdent_all_cont hv') _]
    exact ih

theorem replaceIdents_valid_run (run : List Char) (hv : validIdent run)
    (rest : List Char) :
    replaceIdents (run ++ rest) =
      'v' :: 'a' :: 'r' :: replaceIdents (rest.dropWhile isIdCont) := by
  obtain ⟨c, cs, hrun, hstart, hall⟩ := validIdent_head_start hv
  subst hrun
  rw [List.cons_append, replaceIdents_start c _ (by simp [hstart])]
  exact congrArg _ (congrArg _ (congrArg _
    (congrArg replaceIdents (dropWhile_append_of_all cs hall rest))))

theorem skel_replaceIdents : ∀ n : Nat, ∀ s t : List Char, s.length ≤ n →
    SkelRel s t → replaceIdents s = replaceIdents t := by
  intro n
  induction n with
  | zero =>
    intro s t hl hrel
    have hs : s = [] := List.eq_nil_of_length_eq_zero (Nat.le_zero.mp hl)
    subst hs
    rw [skel_nil_left hrel rfl]
  | succ n ih =>
    intro s t hl hrel
    cases hrel with
    | nil => rfl
    | char c hc hrel' =>
      rename_i s₁ t₁
      rw [replaceIdents_other c _ (by simp [hc]), replaceIdents_other c _ (by simp [hc])]
      simp only [List.length_cons] at hl
      exact congrArg _ (ih s₁ t₁ (by omega) hrel')
    | tok hv hv' hrel' =>
      rename_i run run' s₁ t₁
      rw [replaceIdents_valid_run run hv s₁, replaceIdents_valid_run run' hv' t₁]
      have hlen : (s₁.dropWhile isIdCont).length ≤ n := by
        have h1 : run.length ≠ 0 := by
          intro he
          exact validIdent_ne_nil hv (List.eq_nil_of_length_eq_zero he)
        have h2 : (run ++ s₁).length = run.length + s₁.length := by
          simp [List.length_append]
        have h3 := dropWhile_length_le isIdCont s₁
        omega
      exact congrArg _ (congrArg _ (congrArg _
        (ih _ _ hlen (skel_dropWhile_cont hrel'))))

theorem skel_rename (f : List Char → List Char)
    (hf : ∀ t : List Char, validIdent t → validIdent (f t)) :
    ∀ n : Nat, ∀ l : List Char, l.length ≤ n → SkelRel l (renameIdents f l) := by
  intro n
  induction n with
  | zero =>
    intro l hl
    have : l = [] := List.eq_nil_of_length_eq_zero (Nat.le_zero.mp hl)
    subst this
    exact SkelRel.nil
  | succ n ih =>
    intro l hl
    cases l with
    | nil => exact SkelRel.nil
    | cons c cs =>
      simp only [List.length_cons] at hl
      by_cases hst : isIdStart c
      · rw [renameIdents_start f c cs hst]
        have hvrun : validIdent (c :: cs.takeWhile isIdCont) := by
          simp only [validIdent, Bool.and_eq_true, List.all_eq_true]
          exact ⟨hst, fun x hx => (mem_takeWhile_mem_and _ _ _ hx).2⟩
        have hdecomp : c :: cs = (c :: cs.takeWhile isIdCont) ++ cs.dropWhile isIdCont := by
          rw [List.cons_append, List.takeWhile_append_dropWhile]
        rw [hdecomp]
        apply SkelRel.tok hvrun (hf _ hvrun)
        have := dropWhile_length_le isIdCont cs
        exact ih (cs.dropWhile isIdCont) (by omega)
      · rw [renameIdents_other f c cs hst]
        exact SkelRel.char c (by simpa using hst) (ih cs (by omega))

/-- Related texts normalize identically: `utils.calculate_hash` cannot see
identifier names. -/
theorem utilsNormalize_skel {s t : List Char} (h : SkelRel s t) :
    utilsNormalize s = utilsNormalize t := by
  unfold utilsNormalize stripHashC stripSlashC stripBlockC stripSq3 stripDq3
  apply skel_replaceIdents _ _ _ (Nat.le_refl _)
  apply skel_wsFilter
  apply skel_stripSpan '"' ['"', '"'] '"' ['"', '"'] (by decide) (by decide)
    (by decide) (by decide) (by decide) (by decide) _ _ _ (Nat.le_refl _)
  apply skel_stripSpan sqChar [sqChar, sqChar] sqChar [sqChar, sqChar] (by decide)
    (by decide) (by decide) (by decide) (by decide) (by decide) _ _ _ (Nat.le_refl _)
  apply skel_stripSpan '/' ['*'] '*' ['/'] (by decide) (by decide) (by decide)
    (by decide) (by decide) (by decide) _ _ _ (Nat.le_refl _)
  apply skel_stripSpan '/' ['/'] '\n' [] (by decide) (by decide) (by decide)
    (by decide) (by decide) (by decide) _ _ _ (Nat.le_refl _)
  apply skel_stripSpan '#' [] '\n' [] (by decide) (by decide) (by decide)
    (by decide) (by decide) (by decide) _ _ _ (Nat.le_refl _)
  exact h

/-- Renaming on Lean `String`s. -/
def renameS (f : List Char → List Char) (s : String) : String :=
  ⟨renameIdents f s.data⟩

theorem hashMapOf_map_value (hash : String → String) (v : String → String → String) :
    ∀ codes : List (String × String), ∀ m : List (String × List String),
      (codes.map (fun p => (p.1, v p.1 p.2))).foldl
        (fun m p => hmInsert m (hash p.2) p.1) m =
      codes.foldl (fun m p => hmInsert m (hash (v p.1 p.2)) p.1) m := by
  intro codes
  induction codes with
  | nil => intro m; rfl
  | cons p ps ih =>
    intro m
    simp only [List.map_cons, List.foldl_cons]
    exact ih _

theorem foldl_hmInsert_congr (h1 h2 : String × String → String) :
    ∀ codes : List (String × String), ∀ m : List (String × List String),
      (∀ p : String × String, h1 p = h2 p) →
      codes.foldl (fun m p => hmInsert m (h1 p) p.1) m =
        codes.foldl (fun m p => hmInsert m (h2 p) p.1) m := by
  intro codes
  induction codes with
  | nil => intro m _; rfl
  | cons p ps ih =>
    intro m hagree
    simp only [List.foldl_cons]
    rw [hagree p]
    exact ih _ hagree

/-- C9: renaming every identifier of a submission to well-formed names
leaves its normalized-content hash unchanged; renaming every submission of
a map (each through its own renaming — the identity renaming is allowed,
so this covers renaming any subset) leaves the whole bucket structure, and
so every submission's bucket membership, unchanged. -/
theorem renaming_preserves_hash_and_buckets
    (F : String → List Char → List Char)
    (hF : ∀ k : String, ∀ t : List Char, validIdent t → validIdent (F k t)) :
    (∀ k : String, ∀ code : List Char,
      calculate_hash (renameIdents (F k) code) = calculate_hash code) ∧
    (∀ codes : List (String × String),
      prefilter_codes (codes.map (fun p => (p.1, renameS (F p.1) p.2))) =
        prefilter_codes codes) := by
  have hhash : ∀ k : String, ∀ code : List Char,
      calculate_hash (renameIdents (F k) code) = calculate_hash code := by
    intro k code
    unfold calculate_hash
    rw [(utilsNormalize_skel
      (skel_rename (F k) (hF k) code.length code (Nat.le_refl _))).symm]
  refine ⟨hhash, ?_⟩
  intro codes
  unfold prefilter_codes hashMapOf
  rw [hashMapOf_map_value calculate_hashS (fun k c => renameS (F k) c) codes []]
  rw [foldl_hmInsert_congr (fun p => calculate_hashS (renameS (F p.1) p.2))
    (fun p => calculate_hashS p.2) codes []
    (fun p => congrArg String.mk (hhash p.1 p.2.data))]

theorem renaming_preserves_hash_and_buckets_witness :
    calculate_hash (renameIdents (fun _ => ['z']) (("int a1;//x\n").data)) =
      calculate_hash (("int a1;//x\n").data) ∧
    prefilter_codes (witnessCodes.map
      (fun p => (p.1, renameS (fun _ => ['z']) p.2))) =
      prefilter_codes witnessCodes :=
  ⟨(renaming_preserves_hash_and_buckets (fun _ => fun _ => ['z'])
      (fun _ _ _ => (by decide : validIdent ['z'] = true))).1 "k" (("int a1;//x\n").data),
   (renaming_preserves_hash_and_buckets (fun _ => fun _ => ['z'])
      (fun _ _ _ => (by decide : validIdent ['z'] = true))).2 witnessCodes⟩
